import Mathlib

/-!
The token stream of yaramod.

A shallow embedding of `yaramod::TokenStream` (`include/yaramod/types/token_stream.h`).
The stream keeps its tokens in a `std::list<Token>`; a `TokenIt` is an iterator of that
list.  A list iterator is the identity of a node, not an index, so the embedding gives
every node an address and keeps the nodes, in list order, together with the next address
the allocator hands out.

Operations whose behaviour is undefined in C++ (an iterator of no node of the list,
stepping before the first node, an unreachable range end) return `none`.

The layout pass and the renderer of the stream are declared in the header only; they are
modelled from the specification, over a token layer that names the kinds of token.  The
file also embeds `CuckooModule::initialize` (`src/types/modules/cuckoo_module.cpp`), which
builds the catalog of the cuckoo module.
-/

set_option autoImplicit false

namespace Yaramod

/-! ## Tokens -/

/-- Modelled from the spec: `token.h`, which declares the enumeration `TokenType`, is not
among the sources.  A category is one member of a closed enumeration of lexical kinds; it
is carried as the ordinal of its enumerator. -/
abbrev TokenType := Nat

/-- Modelled from the spec: `literal.h` is not among the sources.  The raw semantic value
of a literal is a string, an integer, a boolean or a float (kept as its bit pattern). -/
inductive LiteralValue where
  | str (s : String)
  | int (i : Int)
  | bool (b : Bool)
  | float (bits : Nat)
  deriving DecidableEq, Repr

/-- Modelled from the spec: `literal.h` is not among the sources.  A literal is a raw
value plus an optional distinct formatted textual rendering. -/
structure Literal where
  value : LiteralValue
  formatted_value : Option String
  deriving DecidableEq, Repr

/-- The constructor `Literal(value)`: no formatted rendering. -/
def Literal.ofValue (value : LiteralValue) : Literal :=
  { value := value, formatted_value := none }

/-- The constructor `Literal(value, formatted_value)`. -/
def Literal.ofFormatted (value : LiteralValue) (formatted_value : String) : Literal :=
  { value := value, formatted_value := some formatted_value }

/-- Modelled from the spec: `token.h` is not among the sources.  A token is a
(category, literal) pair. -/
structure Token where
  type : TokenType
  literal : Literal
  deriving DecidableEq, Repr

/-! ## `std::list` and its iterators -/

/-- The identity of a list node. -/
abbrev Addr := Nat

/-- An iterator of `std::list<Token>` (`TokenIt`): a node of the list, or the position
past the last node. -/
inductive TokenIt where
  | node (a : Addr)
  | pastEnd
  deriving DecidableEq, Repr

/-- A `std::list`: the nodes in list order, each with its address, and the address the
next allocated node gets. -/
structure StdList (α : Type) where
  nodes : List (Addr × α)
  fresh : Addr
  deriving DecidableEq, Repr

/-- The iterator of the first node of a run of nodes, the past-the-end iterator when the
run is empty. -/
def headIt {α : Type} : List (Addr × α) → TokenIt
  | [] => TokenIt.pastEnd
  | n :: _ => TokenIt.node n.1

/-- Cuts a run of nodes at the node with address `a`: the nodes before it, and the nodes
from it on.  `none` when no node has that address. -/
def splitAtAddr {α : Type} (a : Addr) : List (Addr × α) → Option (List (Addr × α) × List (Addr × α))
  | [] => none
  | n :: ns =>
    if n.1 = a then some ([], n :: ns)
    else (splitAtAddr a ns).map (fun pq => (n :: pq.1, pq.2))

/-- Cuts a run of nodes at an iterator: at the node it names, or after the last node for
the past-the-end iterator. -/
def splitAtIt {α : Type} (ns : List (Addr × α)) : TokenIt → Option (List (Addr × α) × List (Addr × α))
  | TokenIt.pastEnd => some (ns, [])
  | TokenIt.node a => splitAtAddr a ns

namespace StdList

variable {α : Type}

/-- The empty list, as the default constructor leaves it. -/
def empty : StdList α := { nodes := [], fresh := 0 }

/-- The addresses of the nodes, in list order. -/
def addrs (l : StdList α) : List Addr := l.nodes.map Prod.fst

/-- The elements, in list order. -/
def toList (l : StdList α) : List α := l.nodes.map Prod.snd

/-- Well-formedness of the representation: no two nodes share an address and the
allocator has not handed out the address it gives next. -/
def WF (l : StdList α) : Prop := l.addrs.Nodup ∧ ∀ a ∈ l.addrs, a < l.fresh

instance (l : StdList α) : Decidable l.WF :=
  inferInstanceAs (Decidable (l.addrs.Nodup ∧ ∀ a ∈ l.addrs, a < l.fresh))

/-- An iterator of this list: one of its nodes, or past-the-end. -/
def Owns (l : StdList α) (it : TokenIt) : Prop :=
  match it with
  | TokenIt.pastEnd => True
  | TokenIt.node a => a ∈ l.addrs

instance (l : StdList α) : (it : TokenIt) → Decidable (l.Owns it)
  | TokenIt.pastEnd => isTrue trivial
  | TokenIt.node a => inferInstanceAs (Decidable (a ∈ l.addrs))

/-- `std::list::begin()`. -/
def begin (l : StdList α) : TokenIt := headIt l.nodes

/-- `std::list::end()`. -/
def «end» (_l : StdList α) : TokenIt := TokenIt.pastEnd

/-- `std::list::size()`. -/
def size (l : StdList α) : Nat := l.nodes.length

/-- Dereferencing an iterator (`*it`); undefined for past-the-end and foreign iterators. -/
def deref (l : StdList α) : TokenIt → Option α
  | TokenIt.pastEnd => none
  | TokenIt.node a => (l.nodes.find? (fun n => n.1 = a)).map Prod.snd

/-- The position of an iterator counted from the first node; past-the-end has the
position `size`. -/
def index (l : StdList α) (it : TokenIt) : Option Nat :=
  (splitAtIt l.nodes it).map (fun pq => pq.1.length)

/-- Decrementing an iterator (`--it`); undefined at `begin()`. -/
def prev (l : StdList α) (it : TokenIt) : Option TokenIt :=
  match splitAtIt l.nodes it with
  | none => none
  | some (p, _) =>
    match p.getLast? with
    | none => none
    | some n => some (TokenIt.node n.1)

/-- Incrementing an iterator (`++it`); undefined at `end()`. -/
def next (l : StdList α) (it : TokenIt) : Option TokenIt :=
  match it with
  | TokenIt.pastEnd => none
  | TokenIt.node a =>
    match splitAtAddr a l.nodes with
    | none => none
    | some (_, q) => some (headIt q.tail)

/-- `std::list::emplace_back(args...)`: a new node after the last one. -/
def emplace_back (l : StdList α) (x : α) : StdList α :=
  { nodes := l.nodes ++ [(l.fresh, x)], fresh := l.fresh + 1 }

/-- `std::list::emplace(pos, args...)`: a new node immediately before `pos`; returns the
iterator of the new node. -/
def emplace (l : StdList α) (pos : TokenIt) (x : α) : Option (StdList α × TokenIt) :=
  match splitAtIt l.nodes pos with
  | none => none
  | some (p, q) =>
    some ({ nodes := p ++ (l.fresh, x) :: q, fresh := l.fresh + 1 }, TokenIt.node l.fresh)

end StdList

/-! ## The token stream -/

/-- `class TokenStream`: its two data members. -/
structure TokenStream where
  _tokens : StdList Token
  formatted : Bool
  deriving DecidableEq, Repr

namespace TokenStream

/-- `TokenStream() = default`: no token, the flag `formatted` false. -/
def default : TokenStream := { _tokens := StdList.empty, formatted := false }

/-- The tokens of the stream, begin to end. -/
def tokens (s : TokenStream) : List Token := s._tokens.toList

/-- `emplace_back(TokenType type, Value&& value)` of the header. -/
def emplace_back (s : TokenStream) (type : TokenType) (value : LiteralValue) :
    Option (TokenStream × TokenIt) :=
  let l := s._tokens.emplace_back { type := type, literal := Literal.ofValue value }
  match l.prev l.end with
  | none => none
  | some it => some ({ s with _tokens := l }, it)

/-- `emplace_back(TokenType type, Value&& value, T&& formatted_value)` of the header. -/
def emplace_back_fmt (s : TokenStream) (type : TokenType) (value : LiteralValue)
    (formatted_value : String) : Option (TokenStream × TokenIt) :=
  let l := s._tokens.emplace_back
    { type := type, literal := Literal.ofFormatted value formatted_value }
  match l.prev l.end with
  | none => none
  | some it => some ({ s with _tokens := l }, it)

/-- `emplace(const TokenIt& before, TokenType type, Value&& value)` of the header. -/
def emplace (s : TokenStream) (before : TokenIt) (type : TokenType) (value : LiteralValue) :
    Option (TokenStream × TokenIt) :=
  match s._tokens.emplace before { type := type, literal := Literal.ofValue value } with
  | none => none
  | some (l, _) =>
    let output := before
    match l.prev output with
    | none => none
    | some output => some ({ s with _tokens := l }, output)

/-- `emplace(const TokenIt& before, TokenType type, Value&& value, T&& formatted_value)`
of the header. -/
def emplace_fmt (s : TokenStream) (before : TokenIt) (type : TokenType) (value : LiteralValue)
    (formatted_value : String) : Option (TokenStream × TokenIt) :=
  match s._tokens.emplace before
      { type := type, literal := Literal.ofFormatted value formatted_value } with
  | none => none
  | some (l, _) =>
    let output := before
    match l.prev output with
    | none => none
    | some output => some ({ s with _tokens := l }, output)

/-- Modelled from the spec: `TokenStream::begin` is declared in the header and defined in
`token_stream.cpp`, which is not among the sources.  The handle of the first token, the
end sentinel for the empty stream. -/
def begin (s : TokenStream) : TokenIt := s._tokens.begin

/-- Modelled from the spec: `TokenStream::end` is declared in the header and defined in
`token_stream.cpp`, which is not among the sources.  The end sentinel. -/
def «end» (s : TokenStream) : TokenIt := s._tokens.end

/-- Modelled from the spec: `TokenStream::size` is declared only.  The number of tokens. -/
def size (s : TokenStream) : Nat := s._tokens.size

/-- Modelled from the spec: `TokenStream::empty` is declared only.  Whether the stream has
no token. -/
def empty (s : TokenStream) : Bool := s._tokens.size == 0

/-- Modelled from the spec: `TokenStream::erase(TokenIt element)` is declared only.
`remove(handle)` deletes one token and returns a handle to the token that now follows, or
the end sentinel. -/
def erase (s : TokenStream) (element : TokenIt) : Option (TokenStream × TokenIt) :=
  match element with
  | TokenIt.pastEnd => none
  | TokenIt.node a =>
    match splitAtAddr a s._tokens.nodes with
    | some (p, _ :: q) =>
      some ({ s with _tokens := { nodes := p ++ q, fresh := s._tokens.fresh } }, headIt q)
    | _ => none

/-- Modelled from the spec: `TokenStream::erase(TokenIt first, TokenIt last)` is declared
only.  `remove(first, last)` deletes the half-open range `[first, last)` and returns the
handle following the removed span; `last` has to be reachable from `first`. -/
def erase_range (s : TokenStream) (first last : TokenIt) : Option (TokenStream × TokenIt) :=
  match splitAtIt s._tokens.nodes first with
  | none => none
  | some (p, q) =>
    match splitAtIt q last with
    | none => none
    | some (_, r) =>
      some ({ s with _tokens := { nodes := p ++ r, fresh := s._tokens.fresh } }, headIt r)

/-- Modelled from the spec: `TokenStream::move_append(TokenStream* donor)` is declared only.
`spliceInto(donor)` moves every token of the donor to the end of this stream, the nodes
relinked and not copied; the donor becomes empty.  The receiver's allocator moves past the
addresses of the nodes it took over.  Returns the receiver and the donor. -/
def move_append (s donor : TokenStream) : TokenStream × TokenStream :=
  ({ s with _tokens :=
      { nodes := s._tokens.nodes ++ donor._tokens.nodes,
        fresh := max s._tokens.fresh donor._tokens.fresh } },
   { donor with _tokens := { nodes := [], fresh := donor._tokens.fresh } })

/-- Modelled from the spec: `TokenStream::move_append(TokenStream* donor, TokenIt before)`
is declared only.  `spliceInto(donor, beforeHandle)` moves every token of the donor
immediately before `before`; the donor becomes empty.  Returns the receiver and the
donor. -/
def move_append_before (s donor : TokenStream) (before : TokenIt) :
    Option (TokenStream × TokenStream) :=
  match splitAtIt s._tokens.nodes before with
  | none => none
  | some (p, q) =>
    some ({ s with _tokens :=
              { nodes := p ++ donor._tokens.nodes ++ q,
                fresh := max s._tokens.fresh donor._tokens.fresh } },
          { donor with _tokens := { nodes := [], fresh := donor._tokens.fresh } })

/-- The nodes of the half-open range `[first, last)`; `none` when `first` or `last` is no
handle of the stream or `last` is not reachable from `first`. -/
def range (s : TokenStream) (first last : TokenIt) : Option (List (Addr × Token)) :=
  match splitAtIt s._tokens.nodes first with
  | none => none
  | some (_, q) =>
    match splitAtIt q last with
    | none => none
    | some (m, _) => some m

/-- Modelled from the spec: `TokenStream::find(TokenType type, TokenIt from, TokenIt to)`
is declared only.  A forward scan for the first token of the category in the half-open
bound `[from, to)`; the end sentinel if absent. -/
def find_from_to (s : TokenStream) (type : TokenType) (from_ to_ : TokenIt) : Option TokenIt :=
  match s.range from_ to_ with
  | none => none
  | some m =>
    match m.find? (fun n => n.2.type = type) with
    | some n => some (TokenIt.node n.1)
    | none => some s.end

/-- Modelled from the spec: `TokenStream::find(TokenType type, TokenIt from)` is declared
only.  The bound `to` is left out: the scan runs to the end of the stream. -/
def find_from (s : TokenStream) (type : TokenType) (from_ : TokenIt) : Option TokenIt :=
  s.find_from_to type from_ s.end

/-- Modelled from the spec: `TokenStream::find(TokenType type)` is declared only.  Both
bounds are left out: the scan covers the whole stream. -/
def find (s : TokenStream) (type : TokenType) : Option TokenIt :=
  s.find_from_to type s.begin s.end

/-- Modelled from the spec: `TokenStream::findBackwards(TokenType type, TokenIt from,
TokenIt to)` is declared only.  The symmetric reverse scan of `[from, to)`, excluding
`to`; the end sentinel if absent. -/
def findBackwards_from_to (s : TokenStream) (type : TokenType) (from_ to_ : TokenIt) :
    Option TokenIt :=
  match s.range from_ to_ with
  | none => none
  | some m =>
    match m.reverse.find? (fun n => n.2.type = type) with
    | some n => some (TokenIt.node n.1)
    | none => some s.end

/-- Modelled from the spec: `TokenStream::findBackwards(TokenType type, TokenIt to)` is
declared only.  The bound `from` is left out: the scan runs back to the first token. -/
def findBackwards_to (s : TokenStream) (type : TokenType) (to_ : TokenIt) : Option TokenIt :=
  s.findBackwards_from_to type s.begin to_

/-- Modelled from the spec: `TokenStream::findBackwards(TokenType type)` is declared only.
Both bounds are left out: the scan covers the whole stream. -/
def findBackwards (s : TokenStream) (type : TokenType) : Option TokenIt :=
  s.findBackwards_from_to type s.begin s.end

end TokenStream

/-! ## Edit sequences -/

/-- One editing call on a stream: an insertion or a removal. -/
inductive Edit where
  | emplace_back (type : TokenType) (value : LiteralValue)
  | emplace_back_fmt (type : TokenType) (value : LiteralValue) (formatted_value : String)
  | emplace (before : TokenIt) (type : TokenType) (value : LiteralValue)
  | emplace_fmt (before : TokenIt) (type : TokenType) (value : LiteralValue)
      (formatted_value : String)
  | erase (element : TokenIt)
  | erase_range (first last : TokenIt)
  deriving Repr

/-- Performs one edit, keeping the stream and dropping the returned handle. -/
def Edit.apply (s : TokenStream) : Edit → Option TokenStream
  | Edit.emplace_back type value => (s.emplace_back type value).map Prod.fst
  | Edit.emplace_back_fmt type value f => (s.emplace_back_fmt type value f).map Prod.fst
  | Edit.emplace before type value => (s.emplace before type value).map Prod.fst
  | Edit.emplace_fmt before type value f => (s.emplace_fmt before type value f).map Prod.fst
  | Edit.erase element => (s.erase element).map Prod.fst
  | Edit.erase_range first last => (s.erase_range first last).map Prod.fst

/-- The addresses of the tokens an edit asks to remove from the stream it is applied to:
the erased element, or the nodes of the erased range. -/
def Edit.removes (s : TokenStream) : Edit → List Addr
  | Edit.erase (TokenIt.node a) => [a]
  | Edit.erase_range first last =>
    match s.range first last with
    | some m => m.map Prod.fst
    | none => []
  | _ => []

/-- Performs the edits in order.  Returns the final stream and the addresses of all the
tokens the edits removed; `none` as soon as one edit is undefined. -/
def runEdits (s : TokenStream) : List Edit → Option (TokenStream × List Addr)
  | [] => some (s, [])
  | e :: es =>
    match e.apply s with
    | none => none
    | some s1 =>
      match runEdits s1 es with
      | none => none
      | some (s2, removed) => some (s2, e.removes s ++ removed)

/-! ## Properties of results -/

/-- The result `r` of an insertion into `s` before `before`: the call is defined, the new
sequence is the old one with exactly one new node, carrying `t`, placed immediately before
the position of `before`, and the returned handle is the new node. -/
def InsertedBefore (s : TokenStream) (before : TokenIt) (t : Token)
    (r : Option (TokenStream × TokenIt)) : Prop :=
  ∃ p q s1 a,
    r = some (s1, TokenIt.node a) ∧
    s._tokens.nodes = p ++ q ∧ headIt q = before ∧
    a ∉ s._tokens.addrs ∧
    s1._tokens.nodes = p ++ (a, t) :: q ∧
    s1._tokens.deref (TokenIt.node a) = some t ∧
    s1._tokens.next (TokenIt.node a) = some before ∧
    s1._tokens.WF ∧ s1.formatted = s.formatted

/-- The result `r` of an insertion at the end of `s`: the call is defined, the new sequence
is the old one followed by exactly one new node, carrying `t`, the returned handle is that
node, it is the last one, and the size has grown by one. -/
def AppendedBack (s : TokenStream) (t : Token) (r : Option (TokenStream × TokenIt)) : Prop :=
  ∃ s1 a,
    r = some (s1, TokenIt.node a) ∧
    a ∉ s._tokens.addrs ∧
    s1._tokens.nodes = s._tokens.nodes ++ [(a, t)] ∧
    s1.tokens = s.tokens ++ [t] ∧
    s1._tokens.deref (TokenIt.node a) = some t ∧
    s1._tokens.next (TokenIt.node a) = some s1.end ∧
    s1.size = s.size + 1 ∧
    s1._tokens.WF ∧ s1.formatted = s.formatted

/-! ## Sample streams -/

/-- A stream of three tokens, as three calls of `emplace_back` on the empty stream leave
it. -/
def sample : TokenStream :=
  { _tokens :=
      { nodes := [(0, { type := 1, literal := Literal.ofValue (LiteralValue.int 10) }),
                  (1, { type := 2, literal := Literal.ofValue (LiteralValue.int 20) }),
                  (2, { type := 1, literal := Literal.ofValue (LiteralValue.int 30) })],
        fresh := 3 },
    formatted := false }

/-- A stream of two tokens whose nodes are none of the nodes of `sample`. -/
def donorSample : TokenStream :=
  { _tokens :=
      { nodes := [(10, { type := 4, literal := Literal.ofValue (LiteralValue.bool true) }),
                  (11, { type := 2, literal := Literal.ofFormatted (LiteralValue.int 255) "0xff" })],
        fresh := 12 },
    formatted := false }

/-- Four edits of `sample`: an insertion before the second token, the removal of the
first token, an insertion at the end, and the removal of the range holding the first
inserted token. -/
def sampleEdits : List Edit :=
  [Edit.emplace (TokenIt.node 1) 7 (LiteralValue.int 5),
   Edit.erase (TokenIt.node 0),
   Edit.emplace_back 9 (LiteralValue.bool true),
   Edit.erase_range (TokenIt.node 3) (TokenIt.node 1)]

/-- The stream `sampleEdits` leaves of `sample`. -/
def editedSample : TokenStream :=
  { _tokens :=
      { nodes := [(1, { type := 2, literal := Literal.ofValue (LiteralValue.int 20) }),
                  (2, { type := 1, literal := Literal.ofValue (LiteralValue.int 30) }),
                  (4, { type := 9, literal := Literal.ofValue (LiteralValue.bool true) })],
        fresh := 5 },
    formatted := false }

/-! ## The cuckoo module -/

/-- Modelled from the spec: `expression.h`, which declares `Expression::Type`, is not among
the sources.  The enumerators of the type that `cuckoo_module.cpp` names. -/
inductive ExpressionType where
  | Int
  | Regexp
  | String
  | Float
  deriving DecidableEq, Repr

/-- Modelled from the spec: `symbol.h` is not among the sources.  A function symbol is a
name/signature tuple: the name, the return type and the parameter types. -/
structure FunctionSymbol where
  name : String
  returnType : ExpressionType
  parameters : List ExpressionType
  deriving DecidableEq, Repr

/-- The constructor `FunctionSymbol(name, returnType, parameters...)`. -/
def FunctionSymbol.create (name : String) (returnType : ExpressionType)
    (parameters : List ExpressionType) : FunctionSymbol :=
  { name := name, returnType := returnType, parameters := parameters }

mutual
/-- Modelled from the spec: `symbol.h` is not among the sources.  A symbol of the catalog: a
function symbol or a structure symbol. -/
inductive Symbol where
  | ofFunction (f : FunctionSymbol)
  | ofStructure (s : StructureSymbol)
/-- Modelled from the spec: `symbol.h` is not among the sources.  A structure symbol is a
static registration table: its name and its attributes in the order of registration. -/
inductive StructureSymbol where
  | mk (name : String) (attributes : List Symbol)
end

/-- The name of a structure symbol. -/
def StructureSymbol.name : StructureSymbol → String
  | StructureSymbol.mk n _ => n

/-- The registered attributes of a structure symbol, in the order of registration. -/
def StructureSymbol.attributes : StructureSymbol → List Symbol
  | StructureSymbol.mk _ a => a

/-- The constructor `StructureSymbol(name)`: no attribute yet. -/
def StructureSymbol.create (name : String) : StructureSymbol :=
  StructureSymbol.mk name []

/-- Modelled from the spec: `StructureSymbol::addAttribute` is defined in `symbol.h`, which
is not among the sources.  One more registration in the table, after the earlier ones. -/
def StructureSymbol.addAttribute (s : StructureSymbol) (symbol : Symbol) : StructureSymbol :=
  StructureSymbol.mk s.name (s.attributes ++ [symbol])

/-- The name of a symbol. -/
def Symbol.getName : Symbol → String
  | Symbol.ofFunction f => f.name
  | Symbol.ofStructure s => s.name

/-- Whether a symbol is a function symbol. -/
def Symbol.isFunction : Symbol → Bool
  | Symbol.ofFunction _ => true
  | Symbol.ofStructure _ => false

/-- The function registrations of a structure symbol, in the order of registration. -/
def StructureSymbol.functions (s : StructureSymbol) : List FunctionSymbol :=
  s.attributes.filterMap (fun a =>
    match a with
    | Symbol.ofFunction f => some f
    | Symbol.ofStructure _ => none)

/-- The sub-structures registered in a structure symbol, in the order of registration. -/
def StructureSymbol.structures (s : StructureSymbol) : List StructureSymbol :=
  s.attributes.filterMap (fun a =>
    match a with
    | Symbol.ofFunction _ => none
    | Symbol.ofStructure t => some t)

/-- `class CuckooModule : public Module`: the name the constructor passes to `Module` and
the structure `initialize` sets. -/
structure CuckooModule where
  _name : String
  _structure : Option StructureSymbol

/-- `CuckooModule::CuckooModule() : Module("cuckoo")`. -/
def CuckooModule.create : CuckooModule :=
  { _name := "cuckoo", _structure := none }

/-- `bool CuckooModule::initialize()` of `cuckoo_module.cpp`: returns the result and the
module with its structure set. -/
def CuckooModule.initialize (m : CuckooModule) : Bool × CuckooModule :=
  let cuckooStruct := StructureSymbol.create "cuckoo"
  let networkStruct := StructureSymbol.create "network"
  let networkStruct := networkStruct.addAttribute
    (Symbol.ofFunction (FunctionSymbol.create "dns_lookup" ExpressionType.Int [ExpressionType.Regexp]))
  let networkStruct := networkStruct.addAttribute
    (Symbol.ofFunction (FunctionSymbol.create "http_get" ExpressionType.Int [ExpressionType.Regexp]))
  let networkStruct := networkStruct.addAttribute
    (Symbol.ofFunction (FunctionSymbol.create "http_post" ExpressionType.Int [ExpressionType.Regexp]))
  let networkStruct := networkStruct.addAttribute
    (Symbol.ofFunction (FunctionSymbol.create "http_request" ExpressionType.Int [ExpressionType.Regexp]))
  let networkStruct := networkStruct.addAttribute
    (Symbol.ofFunction (FunctionSymbol.create "tcp_request" ExpressionType.Int [ExpressionType.Regexp]))
  let networkStruct := networkStruct.addAttribute
    (Symbol.ofFunction (FunctionSymbol.create "tcp_request" ExpressionType.Int [ExpressionType.Regexp, ExpressionType.Int]))
  let networkStruct := networkStruct.addAttribute
    (Symbol.ofFunction (FunctionSymbol.create "http_request_body" ExpressionType.Int [ExpressionType.Regexp]))
  let networkStruct := networkStruct.addAttribute
    (Symbol.ofFunction (FunctionSymbol.create "http_request_body" ExpressionType.Int [ExpressionType.Regexp, ExpressionType.Regexp]))
  let networkStruct := networkStruct.addAttribute
    (Symbol.ofFunction (FunctionSymbol.create "http_response_body" ExpressionType.Int [ExpressionType.Regexp]))
  let networkStruct := networkStruct.addAttribute
    (Symbol.ofFunction (FunctionSymbol.create "http_response_body" ExpressionType.Int [ExpressionType.Regexp, ExpressionType.Regexp]))
  let networkStruct := networkStruct.addAttribute
    (Symbol.ofFunction (FunctionSymbol.create "connection_ip" ExpressionType.Int [ExpressionType.Regexp]))
  let networkStruct := networkStruct.addAttribute
    (Symbol.ofFunction (FunctionSymbol.create "connection_country" ExpressionType.Int [ExpressionType.Regexp]))
  let networkStruct := networkStruct.addAttribute
    (Symbol.ofFunction (FunctionSymbol.create "irc_command" ExpressionType.Int [ExpressionType.Regexp, ExpressionType.Regexp]))
  let cuckooStruct := cuckooStruct.addAttribute (Symbol.ofStructure networkStruct)
  let registryStruct := StructureSymbol.create "registry"
  let registryStruct := registryStruct.addAttribute
    (Symbol.ofFunction (FunctionSymbol.create "key_access" ExpressionType.Int [ExpressionType.Regexp]))
  let registryStruct := registryStruct.addAttribute
    (Symbol.ofFunction (FunctionSymbol.create "key_read" ExpressionType.Int [ExpressionType.Regexp]))
  let registryStruct := registryStruct.addAttribute
    (Symbol.ofFunction (FunctionSymbol.create "key_write" ExpressionType.Int [ExpressionType.Regexp]))
  let registryStruct := registryStruct.addAttribute
    (Symbol.ofFunction (FunctionSymbol.create "key_delete" ExpressionType.Int [ExpressionType.Regexp]))
  let registryStruct := registryStruct.addAttribute
    (Symbol.ofFunction (FunctionSymbol.create "key_value_access" ExpressionType.Int [ExpressionType.Regexp, ExpressionType.Regexp]))
  let cuckooStruct := cuckooStruct.addAttribute (Symbol.ofStructure registryStruct)
  let filesystemStruct := StructureSymbol.create "filesystem"
  let filesystemStruct := filesystemStruct.addAttribute
    (Symbol.ofFunction (FunctionSymbol.create "file_access" ExpressionType.Int [ExpressionType.Regexp]))
  let filesystemStruct := filesystemStruct.addAttribute
    (Symbol.ofFunction (FunctionSymbol.create "file_read" ExpressionType.Int [ExpressionType.Regexp]))
  let filesystemStruct := filesystemStruct.addAttribute
    (Symbol.ofFunction (FunctionSymbol.create "file_write" ExpressionType.Int [ExpressionType.Regexp]))
  let filesystemStruct := filesystemStruct.addAttribute
    (Symbol.ofFunction (FunctionSymbol.create "file_delete" ExpressionType.Int [ExpressionType.Regexp]))
  let filesystemStruct := filesystemStruct.addAttribute
    (Symbol.ofFunction (FunctionSymbol.create "pipe" ExpressionType.Int [ExpressionType.Regexp]))
  let filesystemStruct := filesystemStruct.addAttribute
    (Symbol.ofFunction (FunctionSymbol.create "mailslot" ExpressionType.Int [ExpressionType.Regexp]))
  let cuckooStruct := cuckooStruct.addAttribute (Symbol.ofStructure filesystemStruct)
  let syncStruct := StructureSymbol.create "sync"
  let syncStruct := syncStruct.addAttribute
    (Symbol.ofFunction (FunctionSymbol.create "mutex" ExpressionType.Int [ExpressionType.Regexp]))
  let syncStruct := syncStruct.addAttribute
    (Symbol.ofFunction (FunctionSymbol.create "event" ExpressionType.Int [ExpressionType.Regexp]))
  let syncStruct := syncStruct.addAttribute
    (Symbol.ofFunction (FunctionSymbol.create "semaphore" ExpressionType.Int [ExpressionType.Regexp]))
  let syncStruct := syncStruct.addAttribute
    (Symbol.ofFunction (FunctionSymbol.create "atom" ExpressionType.Int [ExpressionType.Regexp]))
  let syncStruct := syncStruct.addAttribute
    (Symbol.ofFunction (FunctionSymbol.create "section" ExpressionType.Int [ExpressionType.Regexp]))
  let syncStruct := syncStruct.addAttribute
    (Symbol.ofFunction (FunctionSymbol.create "job" ExpressionType.Int [ExpressionType.Regexp]))
  let syncStruct := syncStruct.addAttribute
    (Symbol.ofFunction (FunctionSymbol.create "timer" ExpressionType.Int [ExpressionType.Regexp]))
  let cuckooStruct := cuckooStruct.addAttribute (Symbol.ofStructure syncStruct)
  let processStruct := StructureSymbol.create "process"
  let processStruct := processStruct.addAttribute
    (Symbol.ofFunction (FunctionSymbol.create "executed_command" ExpressionType.Int [ExpressionType.Regexp]))
  let processStruct := processStruct.addAttribute
    (Symbol.ofFunction (FunctionSymbol.create "created_service" ExpressionType.Int [ExpressionType.Regexp]))
  let processStruct := processStruct.addAttribute
    (Symbol.ofFunction (FunctionSymbol.create "started_service" ExpressionType.Int [ExpressionType.Regexp]))
  let processStruct := processStruct.addAttribute
    (Symbol.ofFunction (FunctionSymbol.create "resolved_api" ExpressionType.Int [ExpressionType.Regexp]))
  let processStruct := processStruct.addAttribute
    (Symbol.ofFunction (FunctionSymbol.create "load_path" ExpressionType.Int [ExpressionType.Regexp]))
  let processStruct := processStruct.addAttribute
    (Symbol.ofFunction (FunctionSymbol.create "load_sha256" ExpressionType.Int [ExpressionType.String]))
  let processStruct := processStruct.addAttribute
    (Symbol.ofFunction (FunctionSymbol.create "api_call" ExpressionType.Int [ExpressionType.Regexp]))
  let processStruct := processStruct.addAttribute
    (Symbol.ofFunction (FunctionSymbol.create "modified_clipboard" ExpressionType.Int [ExpressionType.Regexp]))
  let cuckooStruct := cuckooStruct.addAttribute (Symbol.ofStructure processStruct)
  let signatureStruct := StructureSymbol.create "signature"
  let signatureStruct := signatureStruct.addAttribute
    (Symbol.ofFunction (FunctionSymbol.create "name" ExpressionType.Int [ExpressionType.Regexp]))
  let signatureStruct := signatureStruct.addAttribute
    (Symbol.ofFunction (FunctionSymbol.create "hits" ExpressionType.Int [ExpressionType.Regexp]))
  let signatureStruct := signatureStruct.addAttribute
    (Symbol.ofFunction (FunctionSymbol.create "hits" ExpressionType.Int [ExpressionType.Regexp, ExpressionType.Regexp]))
  let signatureStruct := signatureStruct.addAttribute
    (Symbol.ofFunction (FunctionSymbol.create "hits" ExpressionType.Int [ExpressionType.String]))
  let signatureStruct := signatureStruct.addAttribute
    (Symbol.ofFunction (FunctionSymbol.create "hits" ExpressionType.Int [ExpressionType.String, ExpressionType.Regexp]))
  let cuckooStruct := cuckooStruct.addAttribute (Symbol.ofStructure signatureStruct)
  let summaryStruct := StructureSymbol.create "summary"
  let summaryStruct := summaryStruct.addAttribute
    (Symbol.ofFunction (FunctionSymbol.create "ml_score" ExpressionType.Float [ExpressionType.String]))
  let cuckooStruct := cuckooStruct.addAttribute (Symbol.ofStructure summaryStruct)
  (true, { m with _structure := some cuckooStruct })

/-- The catalog `initialize` leaves in a module, the empty structure when none is set. -/
def CuckooModule.catalog (m : CuckooModule) : StructureSymbol :=
  match m._structure with
  | some s => s
  | none => StructureSymbol.create ""


/-- The function registrations of the sub-structures of a structure symbol, each with the
name of its sub-structure, in the order of registration. -/
def StructureSymbol.registrations (s : StructureSymbol) : List (String × FunctionSymbol) :=
  s.structures.flatMap (fun t => t.functions.map (fun f => (t.name, f)))

/-- The names a structure symbol registers more than once as a function, each listed once. -/
def StructureSymbol.overloadedNames (s : StructureSymbol) : List String :=
  ((s.functions.map FunctionSymbol.name).filter
    (fun n => decide (1 < (s.functions.map FunctionSymbol.name).count n))).dedup


/-! ## The token layer -/

/-- The kinds of token the layout pass and the renderer tell apart. -/
inductive TokenKind where
  | ordinary
  | newLine
  | comment
  | includeDirective
  deriving DecidableEq, Repr

/-- Modelled from the spec: `token.h` and `token_stream.cpp` are not among the sources.
What the layout pass and the renderer take from the token layer: the kind of every
category, the canonical textual derivation of a raw value, the rendered text of the
document an include directive refers to, the table of boundary categories of the layout
pass, and the category of the newline tokens it inserts. -/
structure TokenLayer where
  kind : TokenType → TokenKind
  canonical : LiteralValue → String
  included : Token → String
  boundary : TokenType → Bool
  newLine : TokenType

/-- Modelled from the spec: the textual form of a token is its formatted value if present,
else the canonical textual derivation of its value. -/
def Token.getText (L : TokenLayer) (t : Token) : String :=
  match t.literal.formatted_value with
  | some f => f
  | none => L.canonical t.literal.value

/-! ## The layout pass -/

namespace TokenStream

/-- Modelled from the spec: `TokenStream::predecessor` is declared only.  The handle
immediately preceding the given one, or nothing if it is first. -/
def predecessor (s : TokenStream) (it : TokenIt) : Option TokenIt :=
  s._tokens.prev it

/-- Modelled from the spec: `TokenStream::determineNewlineSectors` is declared only.
Sectioning: the handle of every token of a boundary category, with whether the token
before it is a newline token already. -/
def determineNewlineSectors (L : TokenLayer) (s : TokenStream) : List (TokenIt × Bool) :=
  (s._tokens.nodes.filter (fun n => L.boundary n.2.type)).map (fun n =>
    (TokenIt.node n.1,
      match s.predecessor (TokenIt.node n.1) with
      | none => false
      | some h =>
        match s._tokens.deref h with
        | none => false
        | some t => decide (L.kind t.type = TokenKind.newLine)))

/-- Modelled from the spec: `TokenStream::addMissingNewLines` is declared only.
Insertion: for each boundary lacking an adjacent newline, one newline token is inserted
before it with `emplace`; a boundary already carrying a newline is left untouched. -/
def addMissingNewLines (L : TokenLayer) (s : TokenStream) (sectors : List (TokenIt × Bool)) :
    TokenStream :=
  sectors.foldl (fun acc sector =>
    if sector.2 then acc
    else
      match acc.emplace sector.1 L.newLine (LiteralValue.str "\n") with
      | some r => r.1
      | none => acc) s

/-- Modelled from the spec: `TokenStream::autoformat` is declared only.  The layout pass
with its latch: once the flag `formatted` is set the pass is a no-op; otherwise it sections
the stream, inserts the missing newlines and sets the flag. -/
def autoformat (L : TokenLayer) (s : TokenStream) : TokenStream :=
  if s.formatted then s
  else TokenStream.mk (s.addMissingNewLines L (s.determineNewlineSectors L))._tokens true

end TokenStream

/-! ## The renderer -/

/-- `class TokenStream::PrintHelper`: its data members. -/
structure PrintHelper where
  lineCounter : Nat
  columnCounter : Nat
  commentOnThisLine : Bool
  maximalCommentColumn : Nat
  commentPool : List TokenIt
  deriving DecidableEq, Repr

/-- The member initializers of `PrintHelper`. -/
def PrintHelper.default : PrintHelper :=
  { lineCounter := 0, columnCounter := 0, commentOnThisLine := false,
    maximalCommentColumn := 0, commentPool := [] }

/-- `PrintHelper::getCurrentLine` of the header. -/
def PrintHelper.getCurrentLine (h : PrintHelper) : Nat := h.lineCounter

/-- `PrintHelper::getCommentPool` of the header. -/
def PrintHelper.getCommentPool (h : PrintHelper) : List TokenIt := h.commentPool

/-- A piece of the output buffer: emitted text, or a comment withheld in the comment pool,
which keeps its place in the buffer with the column at which it was encountered. -/
inductive Piece where
  | text (s : String)
  | withheld (column : Nat) (s : String)
  deriving DecidableEq, Repr

/-- The characters of a piece. -/
def Piece.str : Piece → String
  | Piece.text s => s
  | Piece.withheld _ s => s

/-- The text of a buffer: its pieces one after the other. -/
def Piece.concat : List Piece → String
  | [] => ""
  | p :: ps => p.str ++ Piece.concat ps

/-- A run of `n` spaces. -/
def pad (n : Nat) : String := "".pushn ' ' n

/-- Emits a piece at the flush of the pool: a withheld comment is padded with spaces to
start at column `m`. -/
def Piece.settle (m : Nat) : Piece → Piece
  | Piece.text s => Piece.text s
  | Piece.withheld column s => Piece.text (pad (m - column) ++ s)

/-- The renderer state of one render call: the print helper and the output buffer
(`std::stringstream* ss`). -/
structure Printer where
  helper : PrintHelper
  ss : List Piece
  deriving DecidableEq, Repr

namespace Printer

/-- The state a render call starts in. -/
def start : Printer := { helper := PrintHelper.default, ss := [] }

/-- Modelled from the spec: the pool is flushed, all pooled comments emitted, each padded
with spaces to start at the recorded maximum column. -/
def flush (p : Printer) : Printer :=
  { helper := { p.helper with maximalCommentColumn := 0, commentPool := [] },
    ss := p.ss.map (Piece.settle p.helper.maximalCommentColumn) }

/-- Modelled from the spec: `PrintHelper::insertIntoStream(ss, what)` is declared only.
Appends the text and advances the column counter by the appended width. -/
def insertIntoStream (p : Printer) (what : String) : Printer :=
  { helper := { p.helper with columnCounter := p.helper.columnCounter + what.length },
    ss := p.ss ++ [Piece.text what] }

/-- Modelled from the spec: `PrintHelper::insertIntoStream(ss, ts, what)` is declared only.
An ordinary token appends its textual form.  An explicit newline token ends the pending
run of commented lines when its line has no comment, appends its textual form, resets the
column to 0, advances the line counter and clears the flag of the comment on this line. -/
def insertTokenIntoStream (L : TokenLayer) (p : Printer) (what : Token) : Printer :=
  if L.kind what.type = TokenKind.newLine then
    let q := if p.helper.commentOnThisLine then p else p.flush
    { helper :=
        { q.helper with
          lineCounter := q.helper.lineCounter + 1, columnCounter := 0,
          commentOnThisLine := false },
      ss := q.ss ++ [Piece.text (what.getText L)] }
  else p.insertIntoStream (what.getText L)

/-- Modelled from the spec: `PrintHelper::printComment` is declared only.  With alignment
the comment is withheld in the pool, the column at which it was encountered is recorded
and the running maximum updated; without alignment it is emitted immediately. -/
def printComment (L : TokenLayer) (p : Printer) (it : TokenIt) (what : Token)
    (alignComment : Bool) : Printer :=
  if alignComment then
    { helper :=
        { p.helper with
          columnCounter := p.helper.columnCounter + (what.getText L).length,
          commentOnThisLine := true,
          maximalCommentColumn := max p.helper.maximalCommentColumn p.helper.columnCounter,
          commentPool := p.helper.commentPool ++ [it] },
      ss := p.ss ++ [Piece.withheld p.helper.columnCounter (what.getText L)] }
  else
    { helper :=
        { p.helper with
          columnCounter := p.helper.columnCounter + (what.getText L).length,
          commentOnThisLine := true },
      ss := p.ss ++ [Piece.text (what.getText L)] }

/-- The renderer on one token. -/
def step (L : TokenLayer) (withIncludes alignComments : Bool) (p : Printer)
    (n : Addr × Token) : Printer :=
  match L.kind n.2.type with
  | TokenKind.comment => p.printComment L (TokenIt.node n.1) n.2 alignComments
  | TokenKind.includeDirective =>
    if withIncludes then p.insertIntoStream (L.included n.2)
    else p.insertTokenIntoStream L n.2
  | _ => p.insertTokenIntoStream L n.2

/-- The renderer on a run of nodes, first to last. -/
def render (L : TokenLayer) (withIncludes alignComments : Bool) (p : Printer)
    (nodes : List (Addr × Token)) : Printer :=
  nodes.foldl (step L withIncludes alignComments) p

end Printer

namespace TokenStream

/-- Modelled from the spec: `TokenStream::getTextProcedure` is declared only.  The linear
single pass over the stream. -/
def getTextProcedure (L : TokenLayer) (s : TokenStream) (helper : Printer)
    (withIncludes alignComments : Bool) : Printer :=
  helper.render L withIncludes alignComments s._tokens.nodes

/-- Modelled from the spec: `TokenStream::getText(bool withIncludes = false, bool
alignComments = true)` is declared only, with these default arguments.  Runs the layout
pass if it has not yet executed, renders the tokens, flushes the pool at the stream end and
returns the text of the buffer; the second component is the stream the call leaves. -/
def getText (L : TokenLayer) (s : TokenStream) (withIncludes : Bool := false)
    (alignComments : Bool := true) : String × TokenStream :=
  let s1 := s.autoformat L
  let p := (s1.getTextProcedure L Printer.start withIncludes alignComments).flush
  (Piece.concat p.ss, s1)

/-- `operator<<(std::ostream& os, TokenStream& ts)` of the header: `os << ts.getText(false)`.
The first component is what the output stream holds afterwards. -/
def «operator<<» (L : TokenLayer) (os : String) (ts : TokenStream) : String × TokenStream :=
  (os ++ (ts.getText L false).1, (ts.getText L false).2)

end TokenStream

/-- A token that is neither a comment token nor a newline token. -/
def PlainToken (L : TokenLayer) (n : Addr × Token) : Prop :=
  L.kind n.2.type ≠ TokenKind.comment ∧ L.kind n.2.type ≠ TokenKind.newLine

instance (L : TokenLayer) (n : Addr × Token) : Decidable (PlainToken L n) :=
  inferInstanceAs (Decidable
    (L.kind n.2.type ≠ TokenKind.comment ∧ L.kind n.2.type ≠ TokenKind.newLine))

/-- The text the renderer appends for a token that is no newline token: the rendered text
of the referenced document for an include directive when expansion is requested, else the
textual form of the token. -/
def tokenText (L : TokenLayer) (withIncludes : Bool) (n : Addr × Token) : String :=
  if L.kind n.2.type = TokenKind.includeDirective ∧ withIncludes = true then L.included n.2
  else n.2.getText L

/-- A line that ends in a trailing comment: its tokens before the comment, the comment and
the newline token, which the last line of a stream may lack. -/
structure CommentedLine where
  code : List (Addr × Token)
  comment : Addr × Token
  newLine : Option (Addr × Token)

/-- The text of a run of tokens: their texts one after the other. -/
def textOf (L : TokenLayer) (withIncludes : Bool) : List (Addr × Token) → String
  | [] => ""
  | n :: ns => tokenText L withIncludes n ++ textOf L withIncludes ns

namespace CommentedLine

/-- The nodes of the line, first to last. -/
def nodes (l : CommentedLine) : List (Addr × Token) :=
  l.code ++ l.comment :: l.newLine.toList

/-- The text of the newline token of the line, empty when the line has none. -/
def newLineText (L : TokenLayer) (l : CommentedLine) : String :=
  match l.newLine with
  | some n => n.2.getText L
  | none => ""

/-- The line ends in a trailing comment: no token before the comment is a newline token,
the comment is a comment token and the newline token, if any, is one. -/
def EndsInComment (L : TokenLayer) (l : CommentedLine) : Prop :=
  (∀ n ∈ l.code, L.kind n.2.type ≠ TokenKind.newLine) ∧
    L.kind l.comment.2.type = TokenKind.comment ∧
    ∀ n ∈ l.newLine.toList, L.kind n.2.type = TokenKind.newLine

/-- The line ends in a trailing comment and holds no other comment. -/
def Valid (L : TokenLayer) (l : CommentedLine) : Prop :=
  (∀ n ∈ l.code, PlainToken L n) ∧
    L.kind l.comment.2.type = TokenKind.comment ∧
    ∀ n ∈ l.newLine.toList, L.kind n.2.type = TokenKind.newLine

/-- The column at which the trailing comment of the line is naturally encountered: the
width of the text before it. -/
def column (L : TokenLayer) (withIncludes : Bool) (l : CommentedLine) : Nat :=
  (textOf L withIncludes l.code).length

/-- The line as rendered with its comment at its natural column. -/
def natural (L : TokenLayer) (withIncludes : Bool) (l : CommentedLine) : String :=
  textOf L withIncludes l.code ++ (l.comment.2.getText L ++ l.newLineText L)

/-- The line as rendered with its comment padded to start at column `m`. -/
def aligned (L : TokenLayer) (withIncludes : Bool) (m : Nat) (l : CommentedLine) : String :=
  textOf L withIncludes l.code ++
    ((pad (m - l.column L withIncludes) ++ l.comment.2.getText L) ++ l.newLineText L)

end CommentedLine

/-- The maximum of the natural comment columns of a run of lines. -/
def maxColumn (L : TokenLayer) (withIncludes : Bool) (lines : List CommentedLine) : Nat :=
  (lines.map (CommentedLine.column L withIncludes)).foldl max 0

/-- The texts of a run of lines one after the other. -/
def joinLines (f : CommentedLine → String) : List CommentedLine → String
  | [] => ""
  | l :: ls => f l ++ joinLines f ls

/-- The run of nodes is empty or ends in a newline token. -/
def EndsLine (L : TokenLayer) (nodes : List (Addr × Token)) : Prop :=
  nodes = [] ∨ ∃ front n, nodes = front ++ [n] ∧ L.kind n.2.type = TokenKind.newLine

/-- The run of nodes is empty or ends in a line that holds no comment: tokens that are no
comments and a newline token, after the start of the stream or a newline token. -/
def EndsPlainLine (L : TokenLayer) (nodes : List (Addr × Token)) : Prop :=
  nodes = [] ∨ ∃ front code n, nodes = front ++ code ++ [n] ∧ EndsLine L front ∧
    (∀ c ∈ code, PlainToken L c) ∧ L.kind n.2.type = TokenKind.newLine

/-- The run of nodes starts with a line that holds no comment, which may be empty and may
be the last line of the stream, without a newline token. -/
def StartsPlainLine (L : TokenLayer) (nodes : List (Addr × Token)) : Prop :=
  ∃ code rest, nodes = code ++ rest ∧ (∀ c ∈ code, PlainToken L c) ∧
    (rest = [] ∨ ∃ n r, rest = n :: r ∧ L.kind n.2.type = TokenKind.newLine)

/-- The run `lines` of the rendered token sequence `pre ++ lines ++ post` is aligned: the
text `getText` returns with `alignComments` true is the text of `pre`, then every line of
the run with its trailing comment padded to start at the maximum of the natural comment
columns of the run, then the rest. -/
def RunAligned (L : TokenLayer) (s : TokenStream) (withIncludes : Bool)
    (pre : List (Addr × Token)) (lines : List CommentedLine) : Prop :=
  ∃ after, (s.getText L withIncludes true).1 =
    Piece.concat (Printer.render L withIncludes true Printer.start pre).flush.ss ++
      joinLines (CommentedLine.aligned L withIncludes (maxColumn L withIncludes lines)) lines ++
      after

/-- Every piece of the buffer is emitted text: no comment is withheld. -/
def AllText (A : List Piece) : Prop := ∀ x ∈ A, ∃ s, x = Piece.text s

/-- The state with the pieces `A` put in front of its buffer. -/
def Printer.prepend (A : List Piece) (p : Printer) : Printer :=
  { helper := p.helper, ss := A ++ p.ss }

/-- The pieces of a commented line in the buffer when its comment is withheld. -/
def CommentedLine.pooledPieces (L : TokenLayer) (withIncludes : Bool) (l : CommentedLine) :
    List Piece :=
  l.code.map (fun n => Piece.text (tokenText L withIncludes n)) ++
    Piece.withheld (l.column L withIncludes) (l.comment.2.getText L) ::
      l.newLine.toList.map (fun n => Piece.text (n.2.getText L))

/-- The pieces of a commented line in the buffer when its comment is emitted at once. -/
def CommentedLine.plainPieces (L : TokenLayer) (withIncludes : Bool) (l : CommentedLine) :
    List Piece :=
  l.code.map (fun n => Piece.text (tokenText L withIncludes n)) ++
    Piece.text (l.comment.2.getText L) ::
      l.newLine.toList.map (fun n => Piece.text (n.2.getText L))

instance (L : TokenLayer) (l : CommentedLine) : Decidable (l.Valid L) :=
  inferInstanceAs (Decidable ((∀ n ∈ l.code, PlainToken L n) ∧
    L.kind l.comment.2.type = TokenKind.comment ∧
    ∀ n ∈ l.newLine.toList, L.kind n.2.type = TokenKind.newLine))

instance (L : TokenLayer) (l : CommentedLine) : Decidable (l.EndsInComment L) :=
  inferInstanceAs (Decidable ((∀ n ∈ l.code, L.kind n.2.type ≠ TokenKind.newLine) ∧
    L.kind l.comment.2.type = TokenKind.comment ∧
    ∀ n ∈ l.newLine.toList, L.kind n.2.type = TokenKind.newLine))

/-! ## A sample document -/

/-- A token layer for the samples: category 1 is the newline token, 2 a comment, 3 an
include directive, every other category ordinary; no category is a layout boundary. -/
def sampleLayer : TokenLayer :=
  { kind := fun t =>
      if t = 1 then TokenKind.newLine
      else if t = 2 then TokenKind.comment
      else if t = 3 then TokenKind.includeDirective
      else TokenKind.ordinary,
    canonical := fun v =>
      match v with
      | LiteralValue.str s => s
      | LiteralValue.bool true => "true"
      | LiteralValue.bool false => "false"
      | _ => "",
    included := fun _ => "private rule lib",
    boundary := fun _ => false,
    newLine := 1 }

/-- A token of the samples: the category and the string it carries. -/
def sampleToken (type : TokenType) (text : String) : Token :=
  { type := type, literal := Literal.ofValue (LiteralValue.str text) }

/-- Three consecutive single-statement lines with trailing comments naturally falling at
the columns 10, 14 and 8. -/
def sampleLines : List CommentedLine :=
  [{ code := [(2, sampleToken 0 "$s1"), (3, sampleToken 0 " = "), (4, sampleToken 0 "/a/"),
              (5, sampleToken 0 " ")],
     comment := (6, sampleToken 2 "// first"),
     newLine := some (7, sampleToken 1 "\n") },
   { code := [(8, sampleToken 0 "$s2"), (9, sampleToken 0 " = "),
              (10, sampleToken 0 "/abcde/"), (11, sampleToken 0 " ")],
     comment := (12, sampleToken 2 "// second"),
     newLine := some (13, sampleToken 1 "\n") },
   { code := [(14, sampleToken 0 "$s3"), (15, sampleToken 0 " = "), (16, sampleToken 0 "4"),
              (17, sampleToken 0 " ")],
     comment := (18, sampleToken 2 "// third"),
     newLine := some (19, sampleToken 1 "\n") }]

/-- The line before the commented lines of the sample document. -/
def samplePre : List (Addr × Token) :=
  [(0, sampleToken 0 "strings:"), (1, sampleToken 1 "\n")]

/-- The lines after the commented lines of the sample document. -/
def samplePost : List (Addr × Token) :=
  [(20, sampleToken 0 "condition:"), (21, sampleToken 1 "\n"), (22, sampleToken 0 "true")]

/-- The sample document: a line, the three commented lines, and two more lines. -/
def commentedSample : TokenStream :=
  { _tokens :=
      { nodes := samplePre ++ sampleLines.flatMap CommentedLine.nodes ++ samplePost,
        fresh := 23 },
    formatted := false }


/-- Two lines that each end in a trailing comment, the first holding an inline comment
before it. -/
def inlineLines : List CommentedLine :=
  [{ code := [(0, sampleToken 0 "aa "), (1, sampleToken 2 "/*x*/"), (2, sampleToken 0 " bb ")],
     comment := (3, sampleToken 2 "// c1"),
     newLine := some (4, sampleToken 1 "\n") },
   { code := [(5, sampleToken 0 "cccccccccccc ")],
     comment := (6, sampleToken 2 "// c2"),
     newLine := some (7, sampleToken 1 "\n") }]

/-- The document of the two lines of `inlineLines`. -/
def inlineSample : TokenStream :=
  { _tokens := { nodes := inlineLines.flatMap CommentedLine.nodes, fresh := 8 },
    formatted := false }

/-- A run of one line that ends in a trailing comment. -/
def brokenLines : List CommentedLine :=
  [{ code := [(0, sampleToken 0 "a ")],
     comment := (1, sampleToken 2 "// c1"),
     newLine := some (2, sampleToken 1 "\n") }]

/-- What follows the run of `brokenLines`: a line that holds an inline comment and ends
in no comment, and one more line that ends in a trailing comment. -/
def brokenPost : List (Addr × Token) :=
  [(3, sampleToken 0 "bbbbbbbbbbbb "), (4, sampleToken 2 "/*x*/"), (5, sampleToken 0 " c"),
   (6, sampleToken 1 "\n"),
   (7, sampleToken 0 "d "), (8, sampleToken 2 "// c3"), (9, sampleToken 1 "\n")]

/-- The document of `brokenLines` followed by `brokenPost`. -/
def brokenSample : TokenStream :=
  { _tokens :=
      { nodes := brokenLines.flatMap CommentedLine.nodes ++ brokenPost, fresh := 10 },
    formatted := false }

/-- The first two lines of `brokenSample`: the second holds an inline comment and ends in
no comment. -/
def brokenPre : List (Addr × Token) :=
  [(0, sampleToken 0 "a "), (1, sampleToken 2 "// c1"), (2, sampleToken 1 "\n"),
   (3, sampleToken 0 "bbbbbbbbbbbb "), (4, sampleToken 2 "/*x*/"), (5, sampleToken 0 " c"),
   (6, sampleToken 1 "\n")]

/-- The last line of `brokenSample`, a run of one line that ends in a trailing comment. -/
def brokenTail : List CommentedLine :=
  [{ code := [(7, sampleToken 0 "d ")],
     comment := (8, sampleToken 2 "// c3"),
     newLine := some (9, sampleToken 1 "\n") }]

/-- Two commented lines at the end of a stream: the first holds an include directive, the
second lacks its newline token. -/
def includeLines : List CommentedLine :=
  [{ code := [(0, sampleToken 3 "include lib"), (1, sampleToken 0 " ")],
     comment := (2, sampleToken 2 "// library"),
     newLine := some (3, sampleToken 1 "\n") },
   { code := [(4, sampleToken 0 "rule r "), (5, sampleToken 0 " ")],
     comment := (6, sampleToken 2 "// last"),
     newLine := none }]

/-- The document of the two lines of `includeLines`. -/
def includeSample : TokenStream :=
  { _tokens := { nodes := includeLines.flatMap CommentedLine.nodes, fresh := 7 },
    formatted := true }

/-- The sample token layer with category 5 as the one boundary category of the layout
pass. -/
def boundaryLayer : TokenLayer :=
  { kind := sampleLayer.kind, canonical := sampleLayer.canonical,
    included := sampleLayer.included, boundary := fun t => decide (t = 5), newLine := 1 }

/-- A stream assembled without layout: two section keywords of the boundary category, the
second already after a newline token. -/
def layoutSample : TokenStream :=
  { _tokens :=
      { nodes := [(0, sampleToken 0 "rule r "), (1, sampleToken 5 "strings:"),
                  (2, sampleToken 1 "\n"), (3, sampleToken 5 "condition:")],
        fresh := 4 },
    formatted := false }


end Yaramod

/-! # Theorems -/

namespace Yaramod

/-! ## Cutting a run of nodes -/

theorem headIt_eq_pastEnd {α : Type} {q : List (Addr × α)} (h : headIt q = TokenIt.pastEnd) :
    q = [] := by
  cases q with
  | nil => rfl
  | cons n ns => simp [headIt] at h

theorem headIt_eq_node {α : Type} {q : List (Addr × α)} {a : Addr}
    (h : headIt q = TokenIt.node a) : ∃ x r, q = (a, x) :: r := by
  cases q with
  | nil => simp [headIt] at h
  | cons n ns =>
    simp only [headIt, TokenIt.node.injEq] at h
    exact ⟨n.2, ns, by rw [← h]⟩

theorem splitAtAddr_some {α : Type} {a : Addr} {ns p q : List (Addr × α)}
    (h : splitAtAddr a ns = some (p, q)) :
    ns = p ++ q ∧ a ∉ p.map Prod.fst ∧ headIt q = TokenIt.node a := by
  induction ns generalizing p with
  | nil => simp [splitAtAddr] at h
  | cons n ns ih =>
    unfold splitAtAddr at h
    split at h
    · rename_i hn
      simp only [Option.some.injEq, Prod.mk.injEq] at h
      obtain ⟨rfl, rfl⟩ := h
      simp [headIt, hn]
    · rename_i hn
      cases hr : splitAtAddr a ns with
      | none => simp [hr] at h
      | some pq =>
        obtain ⟨p1, q1⟩ := pq
        simp only [hr, Option.map_some', Option.some.injEq, Prod.mk.injEq] at h
        obtain ⟨rfl, rfl⟩ := h
        obtain ⟨h1, h2, h3⟩ := ih hr
        refine ⟨by simp [h1], ?_, h3⟩
        simp only [List.map_cons, List.mem_cons, not_or]
        exact ⟨fun e => hn e.symm, h2⟩

theorem splitAtAddr_append {α : Type} {a : Addr} {p q : List (Addr × α)}
    (hp : a ∉ p.map Prod.fst) (hq : headIt q = TokenIt.node a) :
    splitAtAddr a (p ++ q) = some (p, q) := by
  induction p with
  | nil =>
    obtain ⟨x, r, rfl⟩ := headIt_eq_node hq
    simp [splitAtAddr]
  | cons n p ih =>
    simp only [List.map_cons, List.mem_cons, not_or] at hp
    have hne : ¬ n.1 = a := fun e => hp.1 e.symm
    simp [splitAtAddr, hne, ih hp.2]

theorem splitAtAddr_of_mem {α : Type} {a : Addr} {ns : List (Addr × α)}
    (h : a ∈ ns.map Prod.fst) : ∃ p q, splitAtAddr a ns = some (p, q) := by
  induction ns with
  | nil => simp at h
  | cons n ns ih =>
    by_cases hn : n.1 = a
    · exact ⟨[], n :: ns, by simp [splitAtAddr, hn]⟩
    · have h1 : a ∈ ns.map Prod.fst := by
        simp only [List.map_cons, List.mem_cons] at h
        rcases h with h | h
        · exact absurd h.symm hn
        · exact h
      obtain ⟨p, q, hpq⟩ := ih h1
      exact ⟨n :: p, q, by simp [splitAtAddr, hn, hpq]⟩

theorem splitAtIt_some {α : Type} {it : TokenIt} {ns p q : List (Addr × α)}
    (h : splitAtIt ns it = some (p, q)) :
    ns = p ++ q ∧ headIt q = it ∧ ∀ a, it = TokenIt.node a → a ∉ p.map Prod.fst := by
  cases it with
  | pastEnd =>
    simp only [splitAtIt, Option.some.injEq, Prod.mk.injEq] at h
    obtain ⟨rfl, rfl⟩ := h
    simp [headIt]
  | node a =>
    obtain ⟨h1, h2, h3⟩ := splitAtAddr_some h
    refine ⟨h1, h3, ?_⟩
    intro b hb
    cases hb
    exact h2

theorem splitAtIt_append {α : Type} {it : TokenIt} {p q : List (Addr × α)}
    (hq : headIt q = it) (hp : ∀ a, it = TokenIt.node a → a ∉ p.map Prod.fst) :
    splitAtIt (p ++ q) it = some (p, q) := by
  cases it with
  | pastEnd =>
    have := headIt_eq_pastEnd hq
    subst this
    simp [splitAtIt]
  | node a => exact splitAtAddr_append (hp a rfl) hq

theorem splitAtIt_of_owns {α : Type} (l : StdList α) {it : TokenIt} (h : l.Owns it) :
    ∃ p q, splitAtIt l.nodes it = some (p, q) := by
  cases it with
  | pastEnd => exact ⟨l.nodes, [], rfl⟩
  | node a => exact splitAtAddr_of_mem h

/-! ## Iterators of an edited list -/

theorem find_addr_append {α : Type} {p q : List (Addr × α)} {a : Addr} {x : α}
    (hp : a ∉ p.map Prod.fst) :
    (p ++ (a, x) :: q).find? (fun n => decide (n.1 = a)) = some (a, x) := by
  induction p with
  | nil => simp
  | cons n p ih =>
    simp only [List.map_cons, List.mem_cons, not_or] at hp
    have hne : ¬ n.1 = a := fun e => hp.1 e.symm
    simp only [List.cons_append, List.find?, hne, decide_False]
    exact ih hp.2

theorem deref_append {α : Type} {l : StdList α} {p q : List (Addr × α)} {a : Addr} {x : α}
    (hn : l.nodes = p ++ (a, x) :: q) (hp : a ∉ p.map Prod.fst) :
    l.deref (TokenIt.node a) = some x := by
  simp [StdList.deref, hn, find_addr_append hp]

theorem next_append {α : Type} {l : StdList α} {p q : List (Addr × α)} {a : Addr} {x : α}
    (hn : l.nodes = p ++ (a, x) :: q) (hp : a ∉ p.map Prod.fst) :
    l.next (TokenIt.node a) = some (headIt q) := by
  have h : splitAtAddr a (p ++ (a, x) :: q) = some (p, (a, x) :: q) :=
    splitAtAddr_append hp rfl
  simp [StdList.next, hn, h]

theorem prev_append {α : Type} {l : StdList α} {p q : List (Addr × α)} {n : Addr × α}
    {it : TokenIt} (hn : l.nodes = (p ++ [n]) ++ q) (hq : headIt q = it)
    (hp : ∀ a, it = TokenIt.node a → a ∉ (p ++ [n]).map Prod.fst) :
    l.prev it = some (TokenIt.node n.1) := by
  have h : splitAtIt ((p ++ [n]) ++ q) it = some (p ++ [n], q) := splitAtIt_append hq hp
  rw [StdList.prev, hn, h]
  simp

theorem wf_insert {α : Type} {l : StdList α} (hwf : l.WF) {p q : List (Addr × α)}
    (hn : l.nodes = p ++ q) (x : α) :
    StdList.WF { nodes := p ++ (l.fresh, x) :: q, fresh := l.fresh + 1 } := by
  obtain ⟨hnd, hlt⟩ := hwf
  simp only [StdList.addrs, hn, List.map_append] at hnd hlt
  have hfresh : l.fresh ∉ p.map Prod.fst ++ q.map Prod.fst := fun h =>
    Nat.lt_irrefl _ (hlt _ h)
  constructor
  · simp only [StdList.addrs, List.map_append, List.map_cons]
    have hperm : (p.map Prod.fst ++ l.fresh :: q.map Prod.fst).Perm
        (l.fresh :: (p.map Prod.fst ++ q.map Prod.fst)) := List.perm_middle
    exact hperm.nodup_iff.mpr (List.nodup_cons.mpr ⟨hfresh, hnd⟩)
  · intro a ha
    simp only [StdList.addrs, List.map_append, List.map_cons, List.mem_append,
      List.mem_cons] at ha
    have : a = l.fresh ∨ a ∈ p.map Prod.fst ++ q.map Prod.fst := by
      rcases ha with h | h | h
      · exact Or.inr (List.mem_append.mpr (Or.inl h))
      · exact Or.inl h
      · exact Or.inr (List.mem_append.mpr (Or.inr h))
    rcases this with h | h
    · exact h ▸ Nat.lt_succ_self _
    · exact Nat.lt_succ_of_lt (hlt a h)

/-- What `std::list::emplace` followed by decrementing `pos` gives. -/
theorem emplace_then_prev {α : Type} {l : StdList α} (hwf : l.WF) {pos : TokenIt}
    {p q : List (Addr × α)} (hs : splitAtIt l.nodes pos = some (p, q)) (x : α) :
    l.emplace pos x =
        some ({ nodes := p ++ (l.fresh, x) :: q, fresh := l.fresh + 1 }, TokenIt.node l.fresh) ∧
      StdList.prev { nodes := p ++ (l.fresh, x) :: q, fresh := l.fresh + 1 } pos =
        some (TokenIt.node l.fresh) := by
  obtain ⟨hn, hq, hp⟩ := splitAtIt_some hs
  constructor
  · simp [StdList.emplace, hs]
  · apply prev_append (p := p) (q := q) (n := (l.fresh, x)) (by simp) hq
    intro a ha hmem
    simp only [List.map_append, List.map_cons, List.map_nil, List.mem_append,
      List.mem_singleton] at hmem
    rcases hmem with h | h
    · exact hp a ha h
    · obtain ⟨y, r, rfl⟩ := headIt_eq_node (ha ▸ hq)
      have : a < l.fresh := hwf.2 a (by simp [StdList.addrs, hn])
      exact absurd h (Nat.ne_of_lt this)

theorem insertedBefore_of_split {s : TokenStream} (hwf : s._tokens.WF) {before : TokenIt}
    {p q : List (Addr × Token)} (hs : splitAtIt s._tokens.nodes before = some (p, q))
    (t : Token) :
    InsertedBefore s before t
      (some ({ s with _tokens :=
                { nodes := p ++ (s._tokens.fresh, t) :: q, fresh := s._tokens.fresh + 1 } },
             TokenIt.node s._tokens.fresh)) := by
  obtain ⟨hn, hq, hp⟩ := splitAtIt_some hs
  have hfresh : s._tokens.fresh ∉ s._tokens.addrs := fun h => Nat.lt_irrefl _ (hwf.2 _ h)
  have hfp : s._tokens.fresh ∉ p.map Prod.fst := by
    intro h
    apply hfresh
    simp [StdList.addrs, hn, h]
  refine ⟨p, q, _, _, rfl, hn, hq, hfresh, rfl, ?_, ?_, wf_insert hwf hn t, rfl⟩
  · exact deref_append rfl hfp
  · rw [next_append rfl hfp, hq]

theorem emplace_eq {s : TokenStream} (hwf : s._tokens.WF) {before : TokenIt}
    {p q : List (Addr × Token)} (hs : splitAtIt s._tokens.nodes before = some (p, q))
    (type : TokenType) (value : LiteralValue) :
    s.emplace before type value =
      some ({ s with _tokens :=
                { nodes := p ++ (s._tokens.fresh,
                    { type := type, literal := Literal.ofValue value }) :: q,
                  fresh := s._tokens.fresh + 1 } },
            TokenIt.node s._tokens.fresh) := by
  obtain ⟨h1, h2⟩ := emplace_then_prev hwf hs
    ({ type := type, literal := Literal.ofValue value } : Token)
  simp only [TokenStream.emplace, h1, h2]

theorem emplace_fmt_eq {s : TokenStream} (hwf : s._tokens.WF) {before : TokenIt}
    {p q : List (Addr × Token)} (hs : splitAtIt s._tokens.nodes before = some (p, q))
    (type : TokenType) (value : LiteralValue) (formatted_value : String) :
    s.emplace_fmt before type value formatted_value =
      some ({ s with _tokens :=
                { nodes := p ++ (s._tokens.fresh,
                    { type := type, literal := Literal.ofFormatted value formatted_value }) :: q,
                  fresh := s._tokens.fresh + 1 } },
            TokenIt.node s._tokens.fresh) := by
  obtain ⟨h1, h2⟩ := emplace_then_prev hwf hs
    ({ type := type, literal := Literal.ofFormatted value formatted_value } : Token)
  simp only [TokenStream.emplace_fmt, h1, h2]

theorem emplace_back_prev {α : Type} (l : StdList α) (x : α) :
    (l.emplace_back x).prev (l.emplace_back x).end = some (TokenIt.node l.fresh) := by
  simp [StdList.prev, StdList.emplace_back, StdList.end, splitAtIt]

theorem appendedBack_intro {s : TokenStream} (hwf : s._tokens.WF) (t : Token) :
    AppendedBack s t
      (some ({ s with _tokens := s._tokens.emplace_back t }, TokenIt.node s._tokens.fresh)) := by
  have hfresh : s._tokens.fresh ∉ s._tokens.addrs := fun h => Nat.lt_irrefl _ (hwf.2 _ h)
  have hfp : s._tokens.fresh ∉ s._tokens.nodes.map Prod.fst := hfresh
  refine ⟨_, _, rfl, hfresh, rfl, ?_, ?_, ?_, ?_, ?_, rfl⟩
  · simp [TokenStream.tokens, StdList.toList, StdList.emplace_back]
  · exact deref_append (q := []) rfl hfp
  · rw [next_append (q := []) rfl hfp]
    rfl
  · simp [TokenStream.size, StdList.size, StdList.emplace_back]
  · have := wf_insert hwf (p := s._tokens.nodes) (q := []) (by simp) t
    exact this

theorem emplace_back_eq (s : TokenStream) (type : TokenType) (value : LiteralValue) :
    s.emplace_back type value =
      some (TokenStream.mk (s._tokens.emplace_back (Token.mk type (Literal.ofValue value)))
        s.formatted, TokenIt.node s._tokens.fresh) := by
  simp only [TokenStream.emplace_back, emplace_back_prev]

theorem emplace_back_fmt_eq (s : TokenStream) (type : TokenType) (value : LiteralValue)
    (formatted_value : String) :
    s.emplace_back_fmt type value formatted_value =
      some (TokenStream.mk (s._tokens.emplace_back
          (Token.mk type (Literal.ofFormatted value formatted_value)))
        s.formatted, TokenIt.node s._tokens.fresh) := by
  simp only [TokenStream.emplace_back_fmt, emplace_back_prev]

theorem splitAtIt_headIt {α : Type} (q : List (Addr × α)) :
    splitAtIt q (headIt q) = some ([], q) :=
  splitAtIt_append (p := []) rfl (by simp)

theorem filter_not_mem_middle {α : Type} {p m r : List (Addr × α)}
    (hnd : ((p ++ m ++ r).map Prod.fst).Nodup) :
    (p ++ m ++ r).filter (fun n => decide (n.1 ∉ m.map Prod.fst)) = p ++ r := by
  simp only [List.map_append, List.append_assoc] at hnd
  have h1 := List.nodup_append.mp hnd
  have h2 := List.nodup_append.mp h1.2.1
  have hp : p.filter (fun n => decide (n.1 ∉ m.map Prod.fst)) = p := by
    rw [List.filter_eq_self]
    intro n hn
    have hd : n.1 ∉ m.map Prod.fst := fun h =>
      h1.2.2 (List.mem_map_of_mem Prod.fst hn) (List.mem_append.mpr (Or.inl h))
    simpa using hd
  have hm : m.filter (fun n => decide (n.1 ∉ m.map Prod.fst)) = [] := by
    rw [List.filter_eq_nil_iff]
    intro n hn
    simpa using List.mem_map_of_mem Prod.fst hn
  have hr : r.filter (fun n => decide (n.1 ∉ m.map Prod.fst)) = r := by
    rw [List.filter_eq_self]
    intro n hn
    have hd := h2.2.2
    have : n.1 ∉ m.map Prod.fst := fun h => hd h (List.mem_map_of_mem Prod.fst hn)
    simpa using this
  rw [List.filter_append, List.filter_append, hp, hm, hr]
  simp

/-! ## Insertion -/

/-- C1: on a well-formed stream, for every handle `before` of the stream (a live token or
the end sentinel), category and value, `emplace(before, type, value)`, with or without a
formatted value, is defined, leaves the old sequence with exactly one new token
`(type, Literal(value))` placed immediately before the position of `before`, and returns
the handle of that new token. -/
theorem emplace_inserts_before (s : TokenStream) (hwf : s._tokens.WF) (before : TokenIt)
    (hb : s._tokens.Owns before) (type : TokenType) (value : LiteralValue)
    (formatted_value : String) :
    InsertedBefore s before { type := type, literal := Literal.ofValue value }
        (s.emplace before type value) ∧
      InsertedBefore s before
        { type := type, literal := Literal.ofFormatted value formatted_value }
        (s.emplace_fmt before type value formatted_value) := by
  obtain ⟨p, q, hs⟩ := splitAtIt_of_owns s._tokens hb
  constructor
  · rw [emplace_eq hwf hs]
    exact insertedBefore_of_split hwf hs _
  · rw [emplace_fmt_eq hwf hs]
    exact insertedBefore_of_split hwf hs _

theorem emplace_inserts_before_witness :
    sample._tokens.WF ∧ sample._tokens.Owns (TokenIt.node 1) ∧
      InsertedBefore sample (TokenIt.node 1)
        { type := 7, literal := Literal.ofValue (LiteralValue.int 5) }
        (sample.emplace (TokenIt.node 1) 7 (LiteralValue.int 5)) ∧
      InsertedBefore sample (TokenIt.node 1)
        { type := 7, literal := Literal.ofFormatted (LiteralValue.int 5) "0x5" }
        (sample.emplace_fmt (TokenIt.node 1) 7 (LiteralValue.int 5) "0x5") :=
  ⟨by decide, by decide,
    emplace_inserts_before sample (by decide) (TokenIt.node 1) (by decide) 7
      (LiteralValue.int 5) "0x5"⟩

/-- C3: on a well-formed stream, `emplace_back(type, value)` and
`emplace_back(type, value, formatted_value)` are defined, leave the old sequence followed
by exactly one new token `(type, Literal(value[, formatted_value]))`, return the handle of
that new last token, and the number of tokens grows by exactly one. -/
theorem emplace_back_appends (s : TokenStream) (hwf : s._tokens.WF) (type : TokenType)
    (value : LiteralValue) (formatted_value : String) :
    AppendedBack s { type := type, literal := Literal.ofValue value }
        (s.emplace_back type value) ∧
      AppendedBack s { type := type, literal := Literal.ofFormatted value formatted_value }
        (s.emplace_back_fmt type value formatted_value) := by
  constructor
  · rw [emplace_back_eq]
    exact appendedBack_intro hwf _
  · rw [emplace_back_fmt_eq]
    exact appendedBack_intro hwf _

theorem emplace_back_appends_witness :
    sample._tokens.WF ∧
      AppendedBack sample { type := 7, literal := Literal.ofValue (LiteralValue.int 5) }
        (sample.emplace_back 7 (LiteralValue.int 5)) ∧
      AppendedBack sample
        { type := 7, literal := Literal.ofFormatted (LiteralValue.int 5) "0x5" }
        (sample.emplace_back_fmt 7 (LiteralValue.int 5) "0x5") :=
  ⟨by decide, emplace_back_appends sample (by decide) 7 (LiteralValue.int 5) "0x5"⟩

/-- C4: insertion at the boundaries needs no special case.  On every well-formed stream,
the empty one included, `emplace(end(), type, value)` is the same result as
`emplace_back(type, value)` (same new stream, same returned handle; likewise with a
formatted value), and `emplace(begin(), type, value)` makes the new token the first token
of the stream and returns the new `begin()`. -/
theorem emplace_at_boundaries (s : TokenStream) (hwf : s._tokens.WF) (type : TokenType)
    (value : LiteralValue) (formatted_value : String) :
    (∃ r, s.emplace s.end type value = some r ∧ s.emplace_back type value = some r) ∧
      (∃ r, s.emplace_fmt s.end type value formatted_value = some r ∧
        s.emplace_back_fmt type value formatted_value = some r) ∧
      (∃ s1 h, s.emplace s.begin type value = some (s1, h) ∧
        s1.tokens = { type := type, literal := Literal.ofValue value } :: s.tokens ∧
        h = s1.begin ∧
        s1._tokens.deref h = some { type := type, literal := Literal.ofValue value }) ∧
      (∃ s1 h, s.emplace_fmt s.begin type value formatted_value = some (s1, h) ∧
        s1.tokens =
          { type := type, literal := Literal.ofFormatted value formatted_value } :: s.tokens ∧
        h = s1.begin ∧
        s1._tokens.deref h =
          some { type := type, literal := Literal.ofFormatted value formatted_value }) := by
  have hend : splitAtIt s._tokens.nodes s.end = some (s._tokens.nodes, []) := rfl
  have hbegin : splitAtIt s._tokens.nodes s.begin = some ([], s._tokens.nodes) :=
    splitAtIt_headIt s._tokens.nodes
  refine ⟨⟨_, emplace_eq hwf hend type value, ?_⟩,
    ⟨_, emplace_fmt_eq hwf hend type value formatted_value, ?_⟩,
    ⟨_, _, emplace_eq hwf hbegin type value, ?_, ?_, ?_⟩,
    ⟨_, _, emplace_fmt_eq hwf hbegin type value formatted_value, ?_, ?_, ?_⟩⟩
  · rw [emplace_back_eq]; rfl
  · rw [emplace_back_fmt_eq]; rfl
  · simp [TokenStream.tokens, StdList.toList]
  · rfl
  · exact deref_append (p := []) rfl (by simp)
  · simp [TokenStream.tokens, StdList.toList]
  · rfl
  · exact deref_append (p := []) rfl (by simp)

theorem emplace_at_boundaries_witness :
    TokenStream.default._tokens.WF ∧
      (∃ r, TokenStream.default.emplace TokenStream.default.end 7 (LiteralValue.int 5) = some r ∧
        TokenStream.default.emplace_back 7 (LiteralValue.int 5) = some r) ∧
      (∃ r, TokenStream.default.emplace_fmt TokenStream.default.end 7 (LiteralValue.int 5) "0x5"
          = some r ∧
        TokenStream.default.emplace_back_fmt 7 (LiteralValue.int 5) "0x5" = some r) ∧
      (∃ s1 h,
        TokenStream.default.emplace TokenStream.default.begin 7 (LiteralValue.int 5)
          = some (s1, h) ∧
        s1.tokens = { type := 7, literal := Literal.ofValue (LiteralValue.int 5) } ::
          TokenStream.default.tokens ∧
        h = s1.begin ∧
        s1._tokens.deref h = some { type := 7, literal := Literal.ofValue (LiteralValue.int 5) }) ∧
      (∃ s1 h,
        TokenStream.default.emplace_fmt TokenStream.default.begin 7 (LiteralValue.int 5) "0x5"
          = some (s1, h) ∧
        s1.tokens = { type := 7, literal := Literal.ofFormatted (LiteralValue.int 5) "0x5" } ::
          TokenStream.default.tokens ∧
        h = s1.begin ∧
        s1._tokens.deref h =
          some { type := 7, literal := Literal.ofFormatted (LiteralValue.int 5) "0x5" }) :=
  ⟨by decide, emplace_at_boundaries TokenStream.default (by decide) 7 (LiteralValue.int 5) "0x5"⟩

/-! ## Removal -/

/-- C7: for every stream and every handle `it` of it, the end sentinel included,
`erase(it, it)` is defined, returns `it` unchanged and leaves the stream as it was: no
token is removed, the size and the token sequence are unchanged. -/
theorem erase_empty_range (s : TokenStream) (it : TokenIt) (hit : s._tokens.Owns it) :
    ∃ s1, s.erase_range it it = some (s1, it) ∧ s1 = s ∧ s1.size = s.size ∧
      s1.tokens = s.tokens ∧ s1._tokens.nodes = s._tokens.nodes := by
  obtain ⟨p, q, hs⟩ := splitAtIt_of_owns s._tokens hit
  obtain ⟨hn, hq, -⟩ := splitAtIt_some hs
  have hs2 : splitAtIt q it = some ([], q) := hq ▸ splitAtIt_headIt q
  have hs1 : TokenStream.mk (StdList.mk (p ++ q) s._tokens.fresh) s.formatted = s := by
    rw [← hn]
  refine ⟨s, ?_, rfl, rfl, rfl, rfl⟩
  simp only [TokenStream.erase_range, hs, hs2, hq, hs1]

theorem erase_empty_range_witness :
    sample._tokens.Owns (TokenIt.node 1) ∧
      ∃ s1, sample.erase_range (TokenIt.node 1) (TokenIt.node 1) = some (s1, TokenIt.node 1) ∧
        s1 = sample ∧ s1.size = sample.size ∧ s1.tokens = sample.tokens ∧
        s1._tokens.nodes = sample._tokens.nodes :=
  ⟨by decide, erase_empty_range sample (TokenIt.node 1) (by decide)⟩

/-- C8: on a well-formed stream, for every handle `node a` of a live token, `erase` is
defined, deletes exactly that token, decreases the size by one, leaves every other token
and the order unchanged, and returns the handle of the token that followed (the end
sentinel when the erased token was last). -/
theorem erase_removes_one (s : TokenStream) (hwf : s._tokens.WF) (a : Addr)
    (ha : s._tokens.Owns (TokenIt.node a)) :
    ∃ p x q s1 following,
      s.erase (TokenIt.node a) = some (s1, following) ∧
      s._tokens.nodes = p ++ (a, x) :: q ∧
      s1._tokens.nodes = p ++ q ∧
      s1._tokens.nodes = s._tokens.nodes.filter (fun n => decide (n.1 ≠ a)) ∧
      s1.size + 1 = s.size ∧
      s._tokens.next (TokenIt.node a) = some following ∧
      following = headIt q ∧
      ¬ s1._tokens.Owns (TokenIt.node a) ∧
      s1._tokens.WF ∧ s1.formatted = s.formatted := by
  obtain ⟨p, q0, hs⟩ := splitAtAddr_of_mem ha
  obtain ⟨hn, hp, hq⟩ := splitAtAddr_some hs
  obtain ⟨x, q, rfl⟩ := headIt_eq_node hq
  have hnd : ((p ++ [(a, x)] ++ q).map Prod.fst).Nodup := by
    have := hwf.1
    simpa [StdList.addrs, hn] using this
  have hfilter := filter_not_mem_middle hnd
  have hc : (p.map Prod.fst ++ a :: q.map Prod.fst).Nodup := by
    simpa using hnd
  have hperm : (p.map Prod.fst ++ a :: q.map Prod.fst).Perm
      (a :: (p.map Prod.fst ++ q.map Prod.fst)) := List.perm_middle
  have hcons := List.nodup_cons.mp (hperm.nodup_iff.mp hc)
  have haq : a ∉ p.map Prod.fst ++ q.map Prod.fst := hcons.1
  have hnd2 : (p.map Prod.fst ++ q.map Prod.fst).Nodup := hcons.2
  refine ⟨p, x, q, TokenStream.mk (StdList.mk (p ++ q) s._tokens.fresh) s.formatted, headIt q,
    ?_, hn, rfl, ?_, ?_, ?_, rfl, ?_, ⟨?_, ?_⟩, rfl⟩
  · simp only [TokenStream.erase, hs]
  · rw [hn]
    have : (p ++ [(a, x)] ++ q) = p ++ (a, x) :: q := by simp
    rw [← this, ← hfilter]
    apply List.filter_congr
    intro n _
    simp
  · simp only [TokenStream.size, StdList.size, hn, List.length_append, List.length_cons]
    omega
  · exact next_append hn hp
  · simpa [StdList.Owns, StdList.addrs] using haq
  · simpa [StdList.addrs] using hnd2
  · intro b hb
    apply hwf.2
    simp only [StdList.addrs, List.map_append, List.mem_append] at hb
    simp only [StdList.addrs, hn, List.map_append, List.map_cons, List.mem_append,
      List.mem_cons]
    rcases hb with h | h
    · exact Or.inl h
    · exact Or.inr (Or.inr h)

theorem erase_removes_one_witness :
    sample._tokens.WF ∧ sample._tokens.Owns (TokenIt.node 1) ∧
      ∃ p x q s1 following,
        sample.erase (TokenIt.node 1) = some (s1, following) ∧
        sample._tokens.nodes = p ++ (1, x) :: q ∧
        s1._tokens.nodes = p ++ q ∧
        s1._tokens.nodes = sample._tokens.nodes.filter (fun n => decide (n.1 ≠ 1)) ∧
        s1.size + 1 = sample.size ∧
        sample._tokens.next (TokenIt.node 1) = some following ∧
        following = headIt q ∧
        ¬ s1._tokens.Owns (TokenIt.node 1) ∧
        s1._tokens.WF ∧ s1.formatted = sample.formatted :=
  ⟨by decide, by decide, erase_removes_one sample (by decide) 1 (by decide)⟩

/-! ## Splicing -/

/-- C6: for every receiver `r` and donor `d`, after `r.move_append(&d)` the donor is empty
(`empty()` true, `size()` 0), the size of the receiver is its prior size plus the prior
size of the donor, and the moved nodes stand, in donor order, at the end of the receiver;
after `r.move_append(&d, before)`, for a handle `before` of the receiver, the same holds
with the moved nodes standing immediately before `before`. -/
theorem move_append_empties_donor (r d : TokenStream) (before : TokenIt)
    (hb : r._tokens.Owns before) :
    ((r.move_append d).2.empty = true ∧ (r.move_append d).2.size = 0 ∧
        (r.move_append d).1.size = r.size + d.size ∧
        (r.move_append d).1._tokens.nodes = r._tokens.nodes ++ d._tokens.nodes ∧
        (r.move_append d).1.tokens = r.tokens ++ d.tokens) ∧
      ∃ p q r1 d1,
        r.move_append_before d before = some (r1, d1) ∧
        r._tokens.nodes = p ++ q ∧ headIt q = before ∧
        r1._tokens.nodes = p ++ d._tokens.nodes ++ q ∧
        r1.tokens = p.map Prod.snd ++ d.tokens ++ q.map Prod.snd ∧
        d1.empty = true ∧ d1.size = 0 ∧ r1.size = r.size + d.size := by
  obtain ⟨p, q, hs⟩ := splitAtIt_of_owns r._tokens hb
  obtain ⟨hn, hq, -⟩ := splitAtIt_some hs
  refine ⟨⟨rfl, rfl, ?_, rfl, ?_⟩, p, q,
    TokenStream.mk (StdList.mk (p ++ d._tokens.nodes ++ q)
      (max r._tokens.fresh d._tokens.fresh)) r.formatted,
    TokenStream.mk (StdList.mk [] d._tokens.fresh) d.formatted,
    ?_, hn, hq, rfl, ?_, rfl, rfl, ?_⟩
  · simp [TokenStream.move_append, TokenStream.size, StdList.size]
  · simp [TokenStream.move_append, TokenStream.tokens, StdList.toList]
  · simp only [TokenStream.move_append_before, hs]
  · simp [TokenStream.tokens, StdList.toList]
  · simp only [TokenStream.size, StdList.size, hn, List.length_append]
    omega

theorem move_append_empties_donor_witness :
    sample._tokens.Owns (TokenIt.node 1) ∧
      ((sample.move_append donorSample).2.empty = true ∧
        (sample.move_append donorSample).2.size = 0 ∧
        (sample.move_append donorSample).1.size = sample.size + donorSample.size ∧
        (sample.move_append donorSample).1._tokens.nodes
          = sample._tokens.nodes ++ donorSample._tokens.nodes ∧
        (sample.move_append donorSample).1.tokens = sample.tokens ++ donorSample.tokens) ∧
      ∃ p q r1 d1,
        sample.move_append_before donorSample (TokenIt.node 1) = some (r1, d1) ∧
        sample._tokens.nodes = p ++ q ∧ headIt q = TokenIt.node 1 ∧
        r1._tokens.nodes = p ++ donorSample._tokens.nodes ++ q ∧
        r1.tokens = p.map Prod.snd ++ donorSample.tokens ++ q.map Prod.snd ∧
        d1.empty = true ∧ d1.size = 0 ∧ r1.size = sample.size + donorSample.size :=
  ⟨by decide, move_append_empties_donor sample donorSample (TokenIt.node 1) (by decide)⟩

/-! ## Confluence of insertions -/

/-- Two insertions before two handles of which the first stands earlier in the stream:
the nodes after either order of the two calls. -/
theorem emplace_pair_ordered {s : TokenStream} (hwf : s._tokens.WF) {h1 h2 : TokenIt}
    {p m q : List (Addr × Token)} (hm : m ≠ [])
    (hs1 : splitAtIt s._tokens.nodes h1 = some (p, m ++ q))
    (hs2 : splitAtIt s._tokens.nodes h2 = some (p ++ m, q))
    (ty1 : TokenType) (v1 : LiteralValue) (ty2 : TokenType) (v2 : LiteralValue) :
    ∃ s1 r1 s12 r12 s2 r2 s21 r21,
      s.emplace h1 ty1 v1 = some (s1, r1) ∧ s1.emplace h2 ty2 v2 = some (s12, r12) ∧
      s.emplace h2 ty2 v2 = some (s2, r2) ∧ s2.emplace h1 ty1 v1 = some (s21, r21) ∧
      s12._tokens.nodes =
        p ++ (s._tokens.fresh, Token.mk ty1 (Literal.ofValue v1)) :: m ++
          (s._tokens.fresh + 1, Token.mk ty2 (Literal.ofValue v2)) :: q ∧
      s21._tokens.nodes =
        p ++ (s._tokens.fresh + 1, Token.mk ty1 (Literal.ofValue v1)) :: m ++
          (s._tokens.fresh, Token.mk ty2 (Literal.ofValue v2)) :: q := by
  obtain ⟨hn1, hq1, hp1⟩ := splitAtIt_some hs1
  obtain ⟨hn2, hq2, hp2⟩ := splitAtIt_some hs2
  have hfresh : ∀ a, a ∈ s._tokens.addrs → a ≠ s._tokens.fresh := fun a ha =>
    Nat.ne_of_lt (hwf.2 a ha)
  have hwf1 := wf_insert hwf hn1 (Token.mk ty1 (Literal.ofValue v1))
  have hwf2 := wf_insert hwf hn2 (Token.mk ty2 (Literal.ofValue v2))
  -- the cut of `h2` in the stream that already holds the token inserted before `h1`
  have hs12 : splitAtIt (p ++ (s._tokens.fresh, Token.mk ty1 (Literal.ofValue v1)) :: (m ++ q)) h2
      = some (p ++ (s._tokens.fresh, Token.mk ty1 (Literal.ofValue v1)) :: m, q) := by
    have := splitAtIt_append (p := p ++ (s._tokens.fresh, Token.mk ty1 (Literal.ofValue v1)) :: m)
      (q := q) hq2 (by
        intro a ha hmem
        simp only [List.map_append, List.map_cons, List.mem_append, List.mem_cons] at hmem
        have hin : a ∈ s._tokens.addrs := by
          obtain ⟨y, r, rfl⟩ := headIt_eq_node (ha ▸ hq2)
          simp [StdList.addrs, hn2]
        have hnot := hp2 a ha
        simp only [List.map_append, List.mem_append, not_or] at hnot
        rcases hmem with h | h | h
        · exact hnot.1 h
        · exact hfresh a hin h
        · exact hnot.2 h)
    simpa using this
  -- the cut of `h1` in the stream that already holds the token inserted before `h2`
  have hs21 : splitAtIt (p ++ m ++ (s._tokens.fresh, Token.mk ty2 (Literal.ofValue v2)) :: q) h1
      = some (p, m ++ (s._tokens.fresh, Token.mk ty2 (Literal.ofValue v2)) :: q) := by
    have hh : headIt (m ++ (s._tokens.fresh, Token.mk ty2 (Literal.ofValue v2)) :: q) = h1 := by
      cases m with
      | nil => exact absurd rfl hm
      | cons n m => simpa [headIt] using hq1
    have := splitAtIt_append (p := p) hh hp1
    simpa using this
  refine ⟨_, _, _, _, _, _, _, _, emplace_eq hwf hs1 ty1 v1, emplace_eq hwf1 hs12 ty2 v2,
    emplace_eq hwf hs2 ty2 v2, emplace_eq hwf2 hs21 ty1 v1, ?_, ?_⟩
  · simp
  · simp

/-- C5: on a well-formed stream, for two distinct handles `h1 ≠ h2` of the stream,
`emplace(h1, a)` then `emplace(h2, b)` and `emplace(h2, b)` then `emplace(h1, a)` are both
defined and leave the same token sequence begin to end; in both, the previously present
nodes are unchanged and in their old order. -/
theorem emplace_order_confluent (s : TokenStream) (hwf : s._tokens.WF) (h1 h2 : TokenIt)
    (ho1 : s._tokens.Owns h1) (ho2 : s._tokens.Owns h2) (hne : h1 ≠ h2)
    (ty1 : TokenType) (v1 : LiteralValue) (ty2 : TokenType) (v2 : LiteralValue) :
    ∃ s1 r1 s12 r12 s2 r2 s21 r21,
      s.emplace h1 ty1 v1 = some (s1, r1) ∧ s1.emplace h2 ty2 v2 = some (s12, r12) ∧
      s.emplace h2 ty2 v2 = some (s2, r2) ∧ s2.emplace h1 ty1 v1 = some (s21, r21) ∧
      s12.tokens = s21.tokens ∧
      s12._tokens.nodes.filter (fun n => decide (n.1 ∈ s._tokens.addrs)) = s._tokens.nodes ∧
      s21._tokens.nodes.filter (fun n => decide (n.1 ∈ s._tokens.addrs)) = s._tokens.nodes := by
  obtain ⟨p1, q1, hs1⟩ := splitAtIt_of_owns s._tokens ho1
  obtain ⟨p2, q2, hs2⟩ := splitAtIt_of_owns s._tokens ho2
  obtain ⟨hn1, hq1, -⟩ := splitAtIt_some hs1
  obtain ⟨hn2, hq2, -⟩ := splitAtIt_some hs2
  have hfr : ∀ n ∈ s._tokens.nodes, decide (n.1 ∈ s._tokens.addrs) = true := by
    intro n hn
    simpa [StdList.addrs] using ⟨n.2, hn⟩
  have hf0 : s._tokens.fresh ∉ s._tokens.addrs := fun h => Nat.lt_irrefl _ (hwf.2 _ h)
  have hf1 : s._tokens.fresh + 1 ∉ s._tokens.addrs := fun h =>
    Nat.lt_irrefl _ (Nat.lt_trans (Nat.lt_succ_self _) (hwf.2 _ h))
  have hkeep : ∀ (p m q : List (Addr × Token)) (x y : Addr × Token),
      s._tokens.nodes = p ++ m ++ q → x.1 ∉ s._tokens.addrs → y.1 ∉ s._tokens.addrs →
      (p ++ x :: m ++ y :: q).filter (fun n => decide (n.1 ∈ s._tokens.addrs))
        = s._tokens.nodes := by
    intro p m q x y hn hx hy
    have hall := List.filter_eq_self.mpr hfr
    rw [hn] at hall
    simp only [List.filter_append, List.append_assoc] at hall
    simp only [List.filter_append, List.filter_cons, hx, hy, decide_False, List.append_assoc,
      List.cons_append, Bool.false_eq_true, if_false]
    rw [hn, List.append_assoc]
    exact hall
  have hsplit := List.append_eq_append_iff.mp (hn1.symm.trans hn2)
  rcases hsplit with ⟨m, hp2, hq1m⟩ | ⟨m, hp1, hq2m⟩
  · have hm : m ≠ [] := by
      rintro rfl
      apply hne
      rw [← hq1, ← hq2, hq1m]
      rfl
    subst hp2 hq1m
    obtain ⟨s1, r1, s12, r12, s2, r2, s21, r21, e1, e12, e2, e21, n12, n21⟩ :=
      emplace_pair_ordered hwf hm hs1 hs2 ty1 v1 ty2 v2
    refine ⟨s1, r1, s12, r12, s2, r2, s21, r21, e1, e12, e2, e21, ?_, ?_, ?_⟩
    · simp [TokenStream.tokens, StdList.toList, n12, n21]
    · rw [n12]
      exact hkeep p1 m q2 _ _ hn2 hf0 hf1
    · rw [n21]
      exact hkeep p1 m q2 _ _ hn2 hf1 hf0
  · have hm : m ≠ [] := by
      rintro rfl
      apply hne
      rw [← hq1, ← hq2, hq2m]
      rfl
    subst hp1 hq2m
    obtain ⟨s2, r2, s21, r21, s1, r1, s12, r12, e2, e21, e1, e12, n21, n12⟩ :=
      emplace_pair_ordered hwf hm hs2 hs1 ty2 v2 ty1 v1
    refine ⟨s1, r1, s12, r12, s2, r2, s21, r21, e1, e12, e2, e21, ?_, ?_, ?_⟩
    · simp [TokenStream.tokens, StdList.toList, n12, n21]
    · rw [n12]
      exact hkeep p2 m q1 _ _ hn1 hf1 hf0
    · rw [n21]
      exact hkeep p2 m q1 _ _ hn1 hf0 hf1

theorem emplace_order_confluent_witness :
    sample._tokens.WF ∧ sample._tokens.Owns (TokenIt.node 2) ∧
      sample._tokens.Owns TokenIt.pastEnd ∧ TokenIt.node 2 ≠ TokenIt.pastEnd ∧
      ∃ s1 r1 s12 r12 s2 r2 s21 r21,
        sample.emplace (TokenIt.node 2) 7 (LiteralValue.int 5) = some (s1, r1) ∧
        s1.emplace TokenIt.pastEnd 8 (LiteralValue.bool false) = some (s12, r12) ∧
        sample.emplace TokenIt.pastEnd 8 (LiteralValue.bool false) = some (s2, r2) ∧
        s2.emplace (TokenIt.node 2) 7 (LiteralValue.int 5) = some (s21, r21) ∧
        s12.tokens = s21.tokens ∧
        s12._tokens.nodes.filter (fun n => decide (n.1 ∈ sample._tokens.addrs))
          = sample._tokens.nodes ∧
        s21._tokens.nodes.filter (fun n => decide (n.1 ∈ sample._tokens.addrs))
          = sample._tokens.nodes :=
  ⟨by decide, by decide, by decide, by decide,
    emplace_order_confluent sample (by decide) (TokenIt.node 2) TokenIt.pastEnd (by decide)
      (by decide) (by decide) 7 (LiteralValue.int 5) 8 (LiteralValue.bool false)⟩

/-! ## Lookaround -/

theorem getElem?_middle {α : Type} (p m r : List α) (n : Nat) (h1 : p.length ≤ n)
    (h2 : n < p.length + m.length) : (p ++ m ++ r)[n]? = m[n - p.length]? := by
  rw [List.append_assoc, List.getElem?_append_right h1, List.getElem?_append_left (by omega)]

theorem index_eq_some {α : Type} {l : StdList α} {it : TokenIt} {i : Nat}
    (h : l.index it = some i) :
    ∃ p q, splitAtIt l.nodes it = some (p, q) ∧ p.length = i := by
  unfold StdList.index at h
  cases hs : splitAtIt l.nodes it with
  | none => simp [hs] at h
  | some pq =>
    obtain ⟨p, q⟩ := pq
    simp only [hs, Option.map_some', Option.some.injEq] at h
    exact ⟨p, q, rfl, h⟩

/-- The range between two handles of which the second is reachable from the first. -/
theorem range_of_index_le {s : TokenStream} {from_ to_ : TokenIt} {i j : Nat}
    (hi : s._tokens.index from_ = some i) (hj : s._tokens.index to_ = some j) (hij : i ≤ j) :
    ∃ p m r, s._tokens.nodes = p ++ m ++ r ∧ p.length = i ∧ p.length + m.length = j ∧
      s.range from_ to_ = some m ∧ headIt r = to_ := by
  obtain ⟨p, q, hs1, hpi⟩ := index_eq_some hi
  obtain ⟨p2, r, hs2, hpj⟩ := index_eq_some hj
  obtain ⟨hn1, -, -⟩ := splitAtIt_some hs1
  obtain ⟨hn2, hq2, hp2⟩ := splitAtIt_some hs2
  have hex : ∃ m, p2 = p ++ m ∧ q = m ++ r := by
    rcases List.append_eq_append_iff.mp (hn1.symm.trans hn2) with ⟨m, h1, h2⟩ | ⟨m, h1, h2⟩
    · exact ⟨m, h1, h2⟩
    · have hlen : m.length = 0 := by
        have := congrArg List.length h1
        simp only [List.length_append] at this
        omega
      have hm : m = [] := List.length_eq_zero.mp hlen
      subst hm
      exact ⟨[], by simpa using h1.symm, by simpa using h2.symm⟩
  obtain ⟨m, rfl, rfl⟩ := hex
  have hs3 : splitAtIt (m ++ r) to_ = some (m, r) := by
    apply splitAtIt_append hq2
    intro a ha hmem
    apply hp2 a ha
    simp only [List.map_append, List.mem_append]
    exact Or.inr hmem
  refine ⟨p, m, r, by rw [hn2], hpi, ?_, ?_, hq2⟩
  · rw [← hpj, List.length_append]
  · simp only [TokenStream.range, hs1, hs3]

/-- C9: on a well-formed stream, for handles `from`, `to` with `to` reachable from `from`
(positions `i ≤ j`), `find(T, from, to)` is defined and returns either the end sentinel or
the handle of a token of category `T` at a position `k` with `i ≤ k < j`, before which no
position of `[i, k)` holds a token of category `T`: the first match of the half-open
range, never a token at or after `to`. -/
theorem find_bounded (s : TokenStream) (hwf : s._tokens.WF) (type : TokenType)
    (from_ to_ : TokenIt) (i j : Nat) (hi : s._tokens.index from_ = some i)
    (hj : s._tokens.index to_ = some j) (hij : i ≤ j) :
    ∃ res, s.find_from_to type from_ to_ = some res ∧
      (res = s.end ∨
        ∃ a k t, res = TokenIt.node a ∧ s._tokens.index (TokenIt.node a) = some k ∧
          i ≤ k ∧ k < j ∧
          s._tokens.deref (TokenIt.node a) = some t ∧ s.tokens[k]? = some t ∧
          t.type = type ∧
          ∀ n, i ≤ n → n < k → ∀ u, s.tokens[n]? = some u → u.type ≠ type) := by
  obtain ⟨p, m, r, hn, hpi, hpj, hrange, -⟩ := range_of_index_le hi hj hij
  cases hf : m.find? (fun n => decide (n.2.type = type)) with
  | none =>
    exact ⟨s.end, by simp only [TokenStream.find_from_to, hrange, hf], Or.inl rfl⟩
  | some n =>
    refine ⟨TokenIt.node n.1, by simp only [TokenStream.find_from_to, hrange, hf], Or.inr ?_⟩
    obtain ⟨hmatch, pre, post, hm, hpre⟩ := List.find?_eq_some.mp hf
    have hnodes : s._tokens.nodes = (p ++ pre) ++ (n.1, n.2) :: (post ++ r) := by
      rw [hn, hm]; simp
    have hnd : ((p ++ pre).map Prod.fst ++ n.1 :: (post ++ r).map Prod.fst).Nodup := by
      have := hwf.1
      rw [StdList.addrs, hnodes] at this
      simpa using this
    have hperm : ((p ++ pre).map Prod.fst ++ n.1 :: (post ++ r).map Prod.fst).Perm
        (n.1 :: ((p ++ pre).map Prod.fst ++ (post ++ r).map Prod.fst)) := List.perm_middle
    have hnot : n.1 ∉ (p ++ pre).map Prod.fst := fun h =>
      (List.nodup_cons.mp (hperm.nodup_iff.mp hnd)).1 (List.mem_append.mpr (Or.inl h))
    have hidx : s._tokens.index (TokenIt.node n.1) = some (p ++ pre).length := by
      have := splitAtAddr_append (q := (n.1, n.2) :: (post ++ r)) hnot rfl
      simp only [StdList.index, splitAtIt, hnodes, this, Option.map_some']
    have hlen : m.length = pre.length + (post.length + 1) := by
      rw [hm]; simp
    have hget : s._tokens.nodes[(p ++ pre).length]? = some n := by
      rw [hnodes, List.getElem?_append_right (Nat.le_refl _)]
      simp
    refine ⟨n.1, (p ++ pre).length, n.2, rfl, hidx, ?_, ?_, deref_append hnodes hnot, ?_, ?_, ?_⟩
    · rw [List.length_append]; omega
    · rw [List.length_append]; omega
    · simp only [TokenStream.tokens, StdList.toList, List.getElem?_map, hget, Option.map_some']
    · simpa using hmatch
    · intro k hik hk u hu
      rw [List.length_append] at hk
      have hnodes2 : s._tokens.nodes = p ++ pre ++ ((n.1, n.2) :: (post ++ r)) := hnodes
      have hg := getElem?_middle p pre ((n.1, n.2) :: (post ++ r)) k (by omega) hk
      rw [← hnodes2] at hg
      simp only [TokenStream.tokens, StdList.toList, List.getElem?_map, hg,
        Option.map_eq_some'] at hu
      obtain ⟨x, hx, rfl⟩ := hu
      have := hpre x (List.getElem?_mem hx)
      simpa using this

theorem find_bounded_witness :
    sample._tokens.WF ∧ sample._tokens.index (TokenIt.node 1) = some 1 ∧
      sample._tokens.index TokenIt.pastEnd = some 3 ∧ 1 ≤ 3 ∧
      ∃ res, sample.find_from_to 1 (TokenIt.node 1) TokenIt.pastEnd = some res ∧
        (res = sample.end ∨
          ∃ a k t, res = TokenIt.node a ∧ sample._tokens.index (TokenIt.node a) = some k ∧
            1 ≤ k ∧ k < 3 ∧
            sample._tokens.deref (TokenIt.node a) = some t ∧ sample.tokens[k]? = some t ∧
            t.type = 1 ∧
            ∀ n, 1 ≤ n → n < k → ∀ u, sample.tokens[n]? = some u → u.type ≠ 1) :=
  ⟨by decide, by decide, by decide, by decide,
    find_bounded sample (by decide) 1 (TokenIt.node 1) TokenIt.pastEnd 1 3 (by decide)
      (by decide) (by decide)⟩

/-- C10: `find` and `findBackwards` never fail.  For handles `from`, `to` of the stream with
`to` reachable from `from` (positions `i ≤ j`), both calls are defined; and when no token of
category `T` stands at a position of `[i, j)`, both return the end sentinel `end()`, also
when `to` is not `end()`; so do the overloads that leave out `to` (then `end()`), `from`
(then `begin()`), or both. -/
theorem find_never_fails (s : TokenStream) (type : TokenType) (from_ to_ : TokenIt)
    (i j : Nat) (hi : s._tokens.index from_ = some i) (hj : s._tokens.index to_ = some j)
    (hij : i ≤ j) :
    (∃ res, s.find_from_to type from_ to_ = some res) ∧
      (∃ res, s.findBackwards_from_to type from_ to_ = some res) ∧
      ((∀ n, i ≤ n → n < j → ∀ u, s.tokens[n]? = some u → u.type ≠ type) →
        s.find_from_to type from_ to_ = some s.end ∧
        s.findBackwards_from_to type from_ to_ = some s.end ∧
        (to_ = s.end → s.find_from type from_ = some s.end) ∧
        (from_ = s.begin → s.findBackwards_to type to_ = some s.end) ∧
        (from_ = s.begin → to_ = s.end →
          s.find type = some s.end ∧ s.findBackwards type = some s.end)) := by
  obtain ⟨p, m, r, hn, hpi, hpj, hrange, -⟩ := range_of_index_le hi hj hij
  refine ⟨?_, ?_, ?_⟩
  · cases hf : m.find? (fun n => decide (n.2.type = type)) with
    | none => exact ⟨s.end, by simp only [TokenStream.find_from_to, hrange, hf]⟩
    | some n =>
      exact ⟨TokenIt.node n.1, by simp only [TokenStream.find_from_to, hrange, hf]⟩
  · cases hf : m.reverse.find? (fun n => decide (n.2.type = type)) with
    | none => exact ⟨s.end, by simp only [TokenStream.findBackwards_from_to, hrange, hf]⟩
    | some n =>
      exact ⟨TokenIt.node n.1, by simp only [TokenStream.findBackwards_from_to, hrange, hf]⟩
  · intro habs
    have hm : ∀ x ∈ m, ¬ (decide (x.2.type = type) = true) := by
      intro x hx
      obtain ⟨k, hk⟩ := List.mem_iff_getElem?.mp hx
      obtain ⟨hlt, -⟩ := List.getElem?_eq_some.mp hk
      have hg := getElem?_middle p m r (p.length + k) (Nat.le_add_right _ _) (by omega)
      rw [← hn, Nat.add_sub_cancel_left, hk] at hg
      have ht : s.tokens[p.length + k]? = some x.2 := by
        simp only [TokenStream.tokens, StdList.toList, List.getElem?_map, hg, Option.map_some']
      have := habs (p.length + k) (by omega) (by omega) x.2 ht
      simpa using this
    have hf1 : m.find? (fun n => decide (n.2.type = type)) = none :=
      List.find?_eq_none.mpr hm
    have hf2 : m.reverse.find? (fun n => decide (n.2.type = type)) = none :=
      List.find?_eq_none.mpr (fun x hx => hm x (List.mem_reverse.mp hx))
    have h1 : s.find_from_to type from_ to_ = some s.end := by
      simp only [TokenStream.find_from_to, hrange, hf1]
    have h2 : s.findBackwards_from_to type from_ to_ = some s.end := by
      simp only [TokenStream.findBackwards_from_to, hrange, hf2]
    refine ⟨h1, h2, ?_, ?_, ?_⟩
    · intro hto
      subst hto
      exact h1
    · intro hfrom
      subst hfrom
      exact h2
    · intro hfrom hto
      subst hfrom hto
      exact ⟨h1, h2⟩

theorem find_never_fails_witness :
    sample._tokens.index (TokenIt.node 0) = some 0 ∧
      sample._tokens.index (TokenIt.node 1) = some 1 ∧ 0 ≤ 1 ∧
      sample.find_from_to 2 (TokenIt.node 0) (TokenIt.node 1) = some TokenIt.pastEnd ∧
      sample.findBackwards_from_to 2 (TokenIt.node 0) (TokenIt.node 1)
        = some TokenIt.pastEnd :=
  have habs : ∀ n, 0 ≤ n → n < 1 → ∀ u, sample.tokens[n]? = some u → u.type ≠ 2 := by
    intro n _ hn u hu
    have h0 : n = 0 := by omega
    subst h0
    simp only [sample, TokenStream.tokens, StdList.toList, List.map_cons,
      List.getElem?_cons_zero, Option.some.injEq] at hu
    subst hu
    decide
  have hall := (find_never_fails sample 2 (TokenIt.node 0) (TokenIt.node 1) 0 1 (by decide)
    (by decide) (by decide)).2.2 habs
  ⟨by decide, by decide, by decide, hall.1, hall.2.1⟩

/-! ## Handle stability -/

theorem filter_lt_fresh {α : Type} {l : StdList α} (hwf : l.WF) {ns : List (Addr × α)}
    (hsub : ∀ n ∈ ns, n ∈ l.nodes) :
    ns.filter (fun n => decide (n.1 < l.fresh)) = ns := by
  rw [List.filter_eq_self]
  intro n hn
  have : n.1 < l.fresh := hwf.2 n.1 (List.mem_map_of_mem Prod.fst (hsub n hn))
  simpa using this

theorem wf_remove {α : Type} {l : StdList α} (hwf : l.WF) {p m r : List (Addr × α)}
    (hn : l.nodes = p ++ m ++ r) : StdList.WF { nodes := p ++ r, fresh := l.fresh } := by
  have hsub : (p ++ r).Sublist (p ++ m ++ r) := by
    rw [List.append_assoc]
    exact List.Sublist.append (List.Sublist.refl p) (List.sublist_append_right m r)
  constructor
  · have := hwf.1
    rw [StdList.addrs, hn] at this
    exact List.Nodup.sublist (List.Sublist.map Prod.fst hsub) this
  · intro a ha
    apply hwf.2
    rw [StdList.addrs, hn]
    exact (List.Sublist.map Prod.fst hsub).subset ha

/-- The effect of one defined edit on the nodes: a run `m` of nodes is taken out, or one
node with the fresh address is put in. -/
theorem apply_effect {s s1 : TokenStream} (hwf : s._tokens.WF) {e : Edit}
    (h : e.apply s = some s1) :
    ∃ p m r new_, s._tokens.nodes = p ++ m ++ r ∧ s1._tokens.nodes = p ++ new_ ++ r ∧
      e.removes s = m.map Prod.fst ∧ s1._tokens.WF ∧
      ((new_ = [] ∧ s1._tokens.fresh = s._tokens.fresh) ∨
        (m = [] ∧ ∃ t, new_ = [(s._tokens.fresh, t)] ∧
          s1._tokens.fresh = s._tokens.fresh + 1)) := by
  cases e with
  | emplace_back type value =>
    simp only [Edit.apply, emplace_back_eq, Option.map_some', Option.some.injEq] at h
    subst h
    refine ⟨s._tokens.nodes, [], [], [(s._tokens.fresh, Token.mk type (Literal.ofValue value))], by simp, ?_, rfl, ?_,
      Or.inr ⟨rfl, Token.mk type (Literal.ofValue value), rfl, rfl⟩⟩
    · simp [StdList.emplace_back]
    · exact wf_insert hwf (p := s._tokens.nodes) (q := []) (by simp) (Token.mk type (Literal.ofValue value))
  | emplace_back_fmt type value f =>
    simp only [Edit.apply, emplace_back_fmt_eq, Option.map_some', Option.some.injEq] at h
    subst h
    refine ⟨s._tokens.nodes, [], [], [(s._tokens.fresh, Token.mk type (Literal.ofFormatted value f))], by simp, ?_, rfl, ?_,
      Or.inr ⟨rfl, Token.mk type (Literal.ofFormatted value f), rfl, rfl⟩⟩
    · simp [StdList.emplace_back]
    · exact wf_insert hwf (p := s._tokens.nodes) (q := []) (by simp) (Token.mk type (Literal.ofFormatted value f))
  | emplace before type value =>
    cases hs : splitAtIt s._tokens.nodes before with
    | none => simp [Edit.apply, TokenStream.emplace, StdList.emplace, hs] at h
    | some pq =>
      obtain ⟨p, q⟩ := pq
      simp only [Edit.apply, emplace_eq hwf hs, Option.map_some', Option.some.injEq] at h
      subst h
      obtain ⟨hn, -, -⟩ := splitAtIt_some hs
      exact ⟨p, [], q, [(s._tokens.fresh, Token.mk type (Literal.ofValue value))], by simpa using hn, by simp, rfl,
        wf_insert hwf hn (Token.mk type (Literal.ofValue value)), Or.inr ⟨rfl, Token.mk type (Literal.ofValue value), rfl, rfl⟩⟩
  | emplace_fmt before type value f =>
    cases hs : splitAtIt s._tokens.nodes before with
    | none => simp [Edit.apply, TokenStream.emplace_fmt, StdList.emplace, hs] at h
    | some pq =>
      obtain ⟨p, q⟩ := pq
      simp only [Edit.apply, emplace_fmt_eq hwf hs, Option.map_some', Option.some.injEq] at h
      subst h
      obtain ⟨hn, -, -⟩ := splitAtIt_some hs
      exact ⟨p, [], q, [(s._tokens.fresh, Token.mk type (Literal.ofFormatted value f))], by simpa using hn, by simp, rfl,
        wf_insert hwf hn (Token.mk type (Literal.ofFormatted value f)), Or.inr ⟨rfl, Token.mk type (Literal.ofFormatted value f), rfl, rfl⟩⟩
  | erase element =>
    cases element with
    | pastEnd => simp [Edit.apply, TokenStream.erase] at h
    | node a =>
      cases hs : splitAtAddr a s._tokens.nodes with
      | none => simp [Edit.apply, TokenStream.erase, hs] at h
      | some pq =>
        obtain ⟨p, q0⟩ := pq
        obtain ⟨hn, -, hq⟩ := splitAtAddr_some hs
        obtain ⟨x, q, rfl⟩ := headIt_eq_node hq
        simp only [Edit.apply, TokenStream.erase, hs, Option.map_some',
          Option.some.injEq] at h
        subst h
        have hn2 : s._tokens.nodes = p ++ [(a, x)] ++ q := by simpa using hn
        exact ⟨p, [(a, x)], q, [], hn2, by simp, rfl, wf_remove hwf hn2, Or.inl ⟨rfl, rfl⟩⟩
  | erase_range first last =>
    cases hs1 : splitAtIt s._tokens.nodes first with
    | none => simp [Edit.apply, TokenStream.erase_range, hs1] at h
    | some pq =>
      obtain ⟨p, q⟩ := pq
      cases hs2 : splitAtIt q last with
      | none => simp [Edit.apply, TokenStream.erase_range, hs1, hs2] at h
      | some mr =>
        obtain ⟨m, r⟩ := mr
        obtain ⟨hn1, -, -⟩ := splitAtIt_some hs1
        obtain ⟨hn2, -, -⟩ := splitAtIt_some hs2
        simp only [Edit.apply, TokenStream.erase_range, hs1, hs2, Option.map_some',
          Option.some.injEq] at h
        subst h
        have hn : s._tokens.nodes = p ++ m ++ r := by rw [hn1, hn2, List.append_assoc]
        refine ⟨p, m, r, [], hn, by simp, ?_, wf_remove hwf hn, Or.inl ⟨rfl, rfl⟩⟩
        simp only [Edit.removes, TokenStream.range, hs1, hs2]

theorem filter_comm {α : Type} (P Q : α → Bool) (l : List α) :
    (l.filter P).filter Q = (l.filter Q).filter P := by
  simp only [List.filter_filter]
  apply List.filter_congr
  intro x _
  exact Bool.and_comm _ _

theorem find?_filter_of_imp {α : Type} (P Q : α → Bool) (l : List α)
    (h : ∀ x, Q x = true → P x = true) : (l.filter P).find? Q = l.find? Q := by
  induction l with
  | nil => rfl
  | cons x xs ih =>
    by_cases hq : Q x = true
    · simp [List.filter_cons, h x hq, hq]
    · by_cases hp : P x = true
      · simp [List.filter_cons, hp, hq, ih]
      · simp [List.filter_cons, hp, hq, ih]

/-- One defined edit keeps, among the nodes older than the bound `b`, exactly those it
does not remove, in their order. -/
theorem apply_filter {s s1 : TokenStream} (hwf : s._tokens.WF) {e : Edit}
    (h : e.apply s = some s1) (b : Addr) (hb : b ≤ s._tokens.fresh) :
    s1._tokens.WF ∧ s._tokens.fresh ≤ s1._tokens.fresh ∧
      s1._tokens.nodes.filter (fun n => decide (n.1 < b)) =
        (s._tokens.nodes.filter (fun n => decide (n.1 < b))).filter
          (fun n => decide (n.1 ∉ e.removes s)) := by
  obtain ⟨p, m, r, new_, hn, hn1, hrem, hwf1, hcase⟩ := apply_effect hwf h
  have hnd : ((p ++ m ++ r).map Prod.fst).Nodup := by
    have := hwf.1
    rwa [StdList.addrs, hn] at this
  have hmid := filter_not_mem_middle hnd
  refine ⟨hwf1, ?_, ?_⟩
  · rcases hcase with ⟨-, hf⟩ | ⟨-, -, -, hf⟩
    · exact Nat.le_of_eq hf.symm
    · rw [hf]; exact Nat.le_succ _
  · rw [filter_comm, hrem, hn, hmid, hn1]
    rcases hcase with ⟨hnew, -⟩ | ⟨-, t, hnew, -⟩
    · rw [hnew, List.append_nil]
    · have hlt : ¬ s._tokens.fresh < b := Nat.not_lt.mpr hb
      simp [hnew, List.filter_append, List.filter_cons, hlt]

/-- A defined sequence of edits keeps, among the nodes older than the bound `b`, exactly
those it does not remove, in their order. -/
theorem runEdits_filter (es : List Edit) :
    ∀ (s : TokenStream), s._tokens.WF → ∀ (b : Addr), b ≤ s._tokens.fresh →
      ∀ (s2 : TokenStream) (removed : List Addr), runEdits s es = some (s2, removed) →
        s2._tokens.nodes.filter (fun n => decide (n.1 < b)) =
          (s._tokens.nodes.filter (fun n => decide (n.1 < b))).filter
            (fun n => decide (n.1 ∉ removed)) := by
  induction es with
  | nil =>
    intro s _ b _ s2 removed h
    simp only [runEdits, Option.some.injEq, Prod.mk.injEq] at h
    obtain ⟨rfl, rfl⟩ := h
    simp
  | cons e es ih =>
    intro s hwf b hb s2 removed h
    unfold runEdits at h
    cases he : e.apply s with
    | none => simp [he] at h
    | some s1 =>
      cases hr : runEdits s1 es with
      | none => simp [he, hr] at h
      | some res =>
        obtain ⟨s3, rem1⟩ := res
        simp only [he, hr, Option.some.injEq, Prod.mk.injEq] at h
        obtain ⟨rfl, rfl⟩ := h
        obtain ⟨hwf1, hle, hstep⟩ := apply_filter hwf he b hb
        rw [ih s1 hwf1 b (Nat.le_trans hb hle) s3 rem1 hr, hstep, List.filter_filter]
        apply List.filter_congr
        intro n _
        by_cases h1 : n.1 ∈ e.removes s <;> by_cases h2 : n.1 ∈ rem1 <;> simp [h1, h2]

/-- C2: handle stability.  On a well-formed stream, after every defined sequence of
`emplace_back`, `emplace` and `erase` calls, the original nodes that the sequence did not
remove are all still in the stream, with their tokens and in their old relative order; so
a handle to a token that is not itself removed denotes the same token (same category and
literal) as before.  In particular the handle `before` passed to `emplace` denotes the
same token after the call. -/
theorem handle_stability (s : TokenStream) (hwf : s._tokens.WF) (es : List Edit)
    (s2 : TokenStream) (removed : List Addr) (hrun : runEdits s es = some (s2, removed)) :
    s2._tokens.nodes.filter (fun n => decide (n.1 ∈ s._tokens.addrs)) =
        s._tokens.nodes.filter (fun n => decide (n.1 ∉ removed)) ∧
      (∀ y t, s._tokens.deref (TokenIt.node y) = some t → y ∉ removed →
        s2._tokens.deref (TokenIt.node y) = some t) ∧
      (∀ before type value s1 h, s.emplace before type value = some (s1, h) →
        s1._tokens.deref before = s._tokens.deref before) := by
  have hrf := runEdits_filter es s hwf s._tokens.fresh (Nat.le_refl _) s2 removed hrun
  rw [filter_lt_fresh hwf (fun n hn => hn)] at hrf
  have hkeep : s2._tokens.nodes.filter (fun n => decide (n.1 ∈ s._tokens.addrs)) =
      s._tokens.nodes.filter (fun n => decide (n.1 ∉ removed)) := by
    rw [← hrf]
    apply List.filter_congr
    intro n hn
    by_cases hlt : n.1 < s._tokens.fresh
    · have hmem : n ∈ s2._tokens.nodes.filter (fun n => decide (n.1 < s._tokens.fresh)) :=
        List.mem_filter.mpr ⟨hn, by simpa using hlt⟩
      rw [hrf] at hmem
      have hin : n.1 ∈ s._tokens.addrs :=
        List.mem_map_of_mem Prod.fst (List.mem_filter.mp hmem).1
      simp [hlt, hin]
    · have hin : n.1 ∉ s._tokens.addrs := fun hm => hlt (hwf.2 _ hm)
      simp [hlt, hin]
  refine ⟨hkeep, ?_, ?_⟩
  · intro y t hy hyr
    cases hfind : s._tokens.nodes.find? (fun n => decide (n.1 = y)) with
    | none => simp [StdList.deref, hfind] at hy
    | some n0 =>
      have hy0 : n0.1 = y := by simpa using List.find?_some hfind
      have hyin : y ∈ s._tokens.addrs :=
        hy0 ▸ List.mem_map_of_mem Prod.fst (List.mem_of_find?_eq_some hfind)
      have e1 := find?_filter_of_imp (fun n => decide (n.1 ∈ s._tokens.addrs))
        (fun n => decide (n.1 = y)) s2._tokens.nodes (by
          intro x hx
          have : x.1 = y := by simpa using hx
          simpa [this] using hyin)
      have e2 := find?_filter_of_imp (fun n => decide (n.1 ∉ removed))
        (fun n => decide (n.1 = y)) s._tokens.nodes (by
          intro x hx
          have : x.1 = y := by simpa using hx
          simpa [this] using hyr)
      have : s2._tokens.nodes.find? (fun n => decide (n.1 = y)) =
          s._tokens.nodes.find? (fun n => decide (n.1 = y)) := by
        rw [← e1, ← e2, hkeep]
      simp only [StdList.deref] at hy ⊢
      rw [this]
      exact hy
  · intro before type value s1 h hemp
    cases hs : splitAtIt s._tokens.nodes before with
    | none => simp [TokenStream.emplace, StdList.emplace, hs] at hemp
    | some pq =>
      obtain ⟨p, q⟩ := pq
      rw [emplace_eq hwf hs] at hemp
      simp only [Option.some.injEq, Prod.mk.injEq] at hemp
      obtain ⟨rfl, -⟩ := hemp
      obtain ⟨hn, hq, hp⟩ := splitAtIt_some hs
      cases before with
      | pastEnd => rfl
      | node a =>
        obtain ⟨x, q1, rfl⟩ := headIt_eq_node hq
        have ha := hp a rfl
        have hlt : a < s._tokens.fresh := hwf.2 a (by simp [StdList.addrs, hn])
        rw [deref_append hn ha]
        apply deref_append (p := p ++ [(s._tokens.fresh, Token.mk type (Literal.ofValue value))])
          (q := q1) (by simp)
        simp only [List.map_append, List.map_cons, List.map_nil, List.mem_append,
          List.mem_singleton, not_or]
        exact ⟨ha, Nat.ne_of_lt hlt⟩

theorem handle_stability_witness :
    sample._tokens.WF ∧ runEdits sample sampleEdits = some (editedSample, [0, 3]) ∧
      editedSample._tokens.nodes.filter (fun n => decide (n.1 ∈ sample._tokens.addrs)) =
        sample._tokens.nodes.filter (fun n => decide (n.1 ∉ [0, 3])) ∧
      (∀ y t, sample._tokens.deref (TokenIt.node y) = some t → y ∉ [0, 3] →
        editedSample._tokens.deref (TokenIt.node y) = some t) ∧
      (∀ before type value s1 h, sample.emplace before type value = some (s1, h) →
        s1._tokens.deref before = sample._tokens.deref before) :=
  ⟨by decide, by decide,
    handle_stability sample (by decide) sampleEdits editedSample [0, 3] (by decide)⟩

/-! ## The cuckoo catalog -/

/-- The catalog `initialize` builds does not depend on the module it is called on. -/
theorem catalog_eq (m : CuckooModule) :
    ( CuckooModule.initialize m).2.catalog = ( CuckooModule.initialize CuckooModule.create).2.catalog := rfl

/-- C13: `CuckooModule::initialize()` returns true on every call, on whatever module state
it is called, a second call included; afterwards the structure of the module is the
structure symbol named "cuckoo" holding the registered catalog, and the name of the module
is unchanged. -/
theorem cuckoo_initialize_returns_true (m : CuckooModule) :
    ( CuckooModule.initialize m).1 = true ∧
      ( CuckooModule.initialize ( CuckooModule.initialize m).2).1 = true ∧
      ( CuckooModule.initialize ( CuckooModule.initialize m).2).2 = ( CuckooModule.initialize m).2 ∧
      ( CuckooModule.initialize m).2._name = m._name ∧
      ∃ st, ( CuckooModule.initialize m).2._structure = some st ∧ st.name = "cuckoo" ∧
        ( CuckooModule.initialize m).2.catalog = st ∧
        st.attributes.map Symbol.getName =
          ["network", "registry", "filesystem", "sync", "process", "signature", "summary"] ∧
        (st.structures.map (fun t => t.functions.length)).sum = 45 :=
  ⟨rfl, rfl, rfl, rfl, _, rfl, by decide, rfl, by decide, by decide⟩

/-- C15: the catalog `initialize` builds registers under the structure "cuckoo" exactly
seven attributes, all sub-structures, added in the order network, registry, filesystem,
sync, process, signature, summary, with pairwise distinct names, holding 13, 5, 6, 7, 8, 5
and 1 registrations, 45 in total; every registered attribute of a sub-structure is a
function symbol. -/
theorem catalog_structure (m : CuckooModule) :
    ( CuckooModule.initialize m).2.catalog.name = "cuckoo" ∧
      ( CuckooModule.initialize m).2.catalog.attributes.length = 7 ∧
      ( CuckooModule.initialize m).2.catalog.structures.length = 7 ∧
      ( CuckooModule.initialize m).2.catalog.structures.map StructureSymbol.name =
        ["network", "registry", "filesystem", "sync", "process", "signature", "summary"] ∧
      (( CuckooModule.initialize m).2.catalog.structures.map StructureSymbol.name).Nodup ∧
      ( CuckooModule.initialize m).2.catalog.structures.map (fun t => t.attributes.length) =
        [13, 5, 6, 7, 8, 5, 1] ∧
      ( CuckooModule.initialize m).2.catalog.structures.map (fun t => t.functions.length) =
        [13, 5, 6, 7, 8, 5, 1] ∧
      (( CuckooModule.initialize m).2.catalog.structures.map (fun t => t.functions.length)).sum = 45 ∧
      ∀ t ∈ ( CuckooModule.initialize m).2.catalog.structures, ∀ a ∈ t.attributes, a.isFunction = true := by
  rw [catalog_eq m]
  decide

/-- C16: overloads in the cuckoo catalog are unambiguous.  In every sub-structure no two
function registrations have both the same name and the same parameter-type list; the
names registered more than once are tcp_request, http_request_body and http_response_body
in network and hits in signature, and their registrations differ in the parameter
lists. -/
theorem catalog_overloads_unambiguous (m : CuckooModule) :
    (∀ t ∈ ( CuckooModule.initialize m).2.catalog.structures,
        (t.functions.map (fun f => (f.name, f.parameters))).Nodup) ∧
      ( CuckooModule.initialize m).2.catalog.structures.map
          (fun t => (t.name, t.overloadedNames)) =
        [("network", ["tcp_request", "http_request_body", "http_response_body"]),
         ("registry", []), ("filesystem", []), ("sync", []), ("process", []),
         ("signature", ["hits"]), ("summary", [])] ∧
      ∀ t ∈ ( CuckooModule.initialize m).2.catalog.structures, ∀ n ∈ t.overloadedNames,
        ((t.functions.filter (fun f => decide (f.name = n))).map
          FunctionSymbol.parameters).Nodup := by
  rw [catalog_eq m]
  decide

/-- C17: every function `initialize` registers has return type Int, except
summary.ml_score, whose return type is Float; every function takes one or two parameters,
each of type Regexp, String or Int; the first parameter is Regexp except for
process.load_sha256, the two String-first overloads of signature.hits and
summary.ml_score, whose first parameter is String. -/
theorem catalog_signatures (m : CuckooModule) :
    (∀ r ∈ ( CuckooModule.initialize m).2.catalog.registrations,
        (if r.1 = "summary" ∧ r.2.name = "ml_score" then r.2.returnType = ExpressionType.Float
          else r.2.returnType = ExpressionType.Int) ∧
        (r.2.parameters.length = 1 ∨ r.2.parameters.length = 2) ∧
        (∀ p ∈ r.2.parameters, p = ExpressionType.Regexp ∨ p = ExpressionType.String ∨
          p = ExpressionType.Int) ∧
        (r.2.parameters.head? = some ExpressionType.Regexp ∨
          r.2.parameters.head? = some ExpressionType.String)) ∧
      ( CuckooModule.initialize m).2.catalog.registrations.length = 45 ∧
      (( CuckooModule.initialize m).2.catalog.registrations.filter
          (fun r => decide (r.2.returnType ≠ ExpressionType.Int))).map
          (fun r => (r.1, r.2.name, r.2.returnType)) =
        [("summary", "ml_score", ExpressionType.Float)] ∧
      (( CuckooModule.initialize m).2.catalog.registrations.filter
          (fun r => decide (r.2.parameters.head? ≠ some ExpressionType.Regexp))).map
          (fun r => (r.1, r.2.name, r.2.parameters)) =
        [("process", "load_sha256", [ExpressionType.String]),
         ("signature", "hits", [ExpressionType.String]),
         ("signature", "hits", [ExpressionType.String, ExpressionType.Regexp]),
         ("summary", "ml_score", [ExpressionType.String])] := by
  rw [catalog_eq m]
  decide

/-! ## The layout latch -/

theorem apply_formatted {s s1 : TokenStream} {e : Edit} (h : e.apply s = some s1) :
    s1.formatted = s.formatted := by
  cases e with
  | emplace_back type value =>
    simp only [Edit.apply, emplace_back_eq, Option.map_some', Option.some.injEq] at h
    subst h; rfl
  | emplace_back_fmt type value f =>
    simp only [Edit.apply, emplace_back_fmt_eq, Option.map_some', Option.some.injEq] at h
    subst h; rfl
  | emplace before type value =>
    simp only [Edit.apply, TokenStream.emplace] at h
    split at h
    · simp at h
    · split at h
      · simp at h
      · simp only [Option.map_some', Option.some.injEq] at h
        subst h; rfl
  | emplace_fmt before type value f =>
    simp only [Edit.apply, TokenStream.emplace_fmt] at h
    split at h
    · simp at h
    · split at h
      · simp at h
      · simp only [Option.map_some', Option.some.injEq] at h
        subst h; rfl
  | erase element =>
    simp only [Edit.apply, TokenStream.erase] at h
    split at h
    · simp at h
    · split at h
      · simp only [Option.map_some', Option.some.injEq] at h
        subst h; rfl
      · simp at h
  | erase_range first last =>
    simp only [Edit.apply, TokenStream.erase_range] at h
    split at h
    · simp at h
    · split at h
      · simp at h
      · simp only [Option.map_some', Option.some.injEq] at h
        subst h; rfl

theorem runEdits_formatted (es : List Edit) :
    ∀ (s s2 : TokenStream) (removed : List Addr), runEdits s es = some (s2, removed) →
      s2.formatted = s.formatted := by
  induction es with
  | nil =>
    intro s s2 removed h
    simp only [runEdits, Option.some.injEq, Prod.mk.injEq] at h
    rw [← h.1]
  | cons e es ih =>
    intro s s2 removed h
    unfold runEdits at h
    cases he : e.apply s with
    | none => simp [he] at h
    | some s1 =>
      cases hr : runEdits s1 es with
      | none => simp [he, hr] at h
      | some res =>
        obtain ⟨s3, rem1⟩ := res
        simp only [he, hr, Option.some.injEq, Prod.mk.injEq] at h
        rw [← h.1, ih s1 s3 rem1 hr, apply_formatted he]

theorem autoformat_of_formatted (L : TokenLayer) {t : TokenStream} (h : t.formatted = true) :
    t.autoformat L = t := by
  simp [TokenStream.autoformat, h]

theorem autoformat_formatted (L : TokenLayer) (s : TokenStream) :
    (s.autoformat L).formatted = true := by
  unfold TokenStream.autoformat
  split
  · assumption
  · rfl

/-- C11: idempotent layout.  The latch `formatted` is false in a new stream and true after
the layout pass; on every stream, `autoformat` twice in succession leaves the very stream,
hence the token sequence, and the rendered text that `autoformat` once leaves; once the
latch is set, every later invocation returns the stream unchanged and inserts no token,
also after edits made in between. -/
theorem autoformat_idempotent (L : TokenLayer) (s : TokenStream) :
    TokenStream.default.formatted = false ∧
      (s.autoformat L).formatted = true ∧
      (s.autoformat L).autoformat L = s.autoformat L ∧
      ((s.autoformat L).autoformat L).tokens = (s.autoformat L).tokens ∧
      (∀ withIncludes alignComments,
        (((s.autoformat L).autoformat L).getText L withIncludes alignComments).1 =
          ((s.autoformat L).getText L withIncludes alignComments).1) ∧
      (∀ t : TokenStream, t.formatted = true →
        t.autoformat L = t ∧ (t.autoformat L)._tokens.nodes = t._tokens.nodes ∧
          (t.autoformat L).tokens = t.tokens) ∧
      (∀ es s2 removed, runEdits (s.autoformat L) es = some (s2, removed) →
        s2.autoformat L = s2) := by
  have h1 := autoformat_formatted L s
  have h2 := autoformat_of_formatted L h1
  refine ⟨rfl, h1, h2, by rw [h2], ?_, ?_, ?_⟩
  · intro withIncludes alignComments
    rw [h2]
  · intro t ht
    have := autoformat_of_formatted L ht
    exact ⟨this, by rw [this], by rw [this]⟩
  · intro es s2 removed hrun
    apply autoformat_of_formatted
    rw [runEdits_formatted es _ s2 removed hrun]
    exact h1

/-! ## Writing a stream -/

/-- C14: for every stream, writing it with `operator<<` appends to the output stream
exactly the text `getText(withIncludes = false, alignComments = true)` returns, the text
of the buffer rendered with include directives not expanded and comments aligned, and
leaves the stream that call leaves; `getText()` and `getText(false)` are that call by the
default arguments. -/
theorem shift_writes_getText (L : TokenLayer) (os : String) (ts : TokenStream) :
    (TokenStream.«operator<<» L os ts).1 = os ++ (ts.getText L false true).1 ∧
      (TokenStream.«operator<<» L os ts).2 = (ts.getText L false true).2 ∧
      ts.getText L = ts.getText L false true ∧
      ts.getText L false = ts.getText L false true ∧
      (ts.getText L false true).1 =
        Piece.concat (Printer.render L false true Printer.start
          (ts.autoformat L)._tokens.nodes).flush.ss :=
  ⟨rfl, rfl, rfl, rfl, rfl⟩

/-! ## The output buffer -/

theorem concat_append (a b : List Piece) :
    Piece.concat (a ++ b) = Piece.concat a ++ Piece.concat b := by
  induction a with
  | nil => simp [Piece.concat]
  | cons x xs ih => simp [Piece.concat, ih, String.append_assoc]

theorem concat_code (L : TokenLayer) (withIncludes : Bool) (code : List (Addr × Token)) :
    Piece.concat (code.map (fun n => Piece.text (tokenText L withIncludes n))) =
      textOf L withIncludes code := by
  induction code with
  | nil => rfl
  | cons n ns ih => simp [Piece.concat, Piece.str, textOf, ih]

theorem length_pad (n : Nat) : (pad n).length = n := by
  simp [pad]

theorem allText_nil : AllText [] := by
  intro x hx
  cases hx

theorem allText_append {A B : List Piece} (hA : AllText A) (hB : AllText B) :
    AllText (A ++ B) := by
  intro x hx
  rcases List.mem_append.mp hx with h | h
  · exact hA x h
  · exact hB x h

theorem allText_singleton (s : String) : AllText [Piece.text s] := by
  intro x hx
  exact ⟨s, List.mem_singleton.mp hx⟩

theorem allText_code (L : TokenLayer) (withIncludes : Bool) (code : List (Addr × Token)) :
    AllText (code.map (fun n => Piece.text (tokenText L withIncludes n))) := by
  intro x hx
  obtain ⟨n, -, rfl⟩ := List.mem_map.mp hx
  exact ⟨_, rfl⟩

theorem allText_map_settle (m : Nat) (A : List Piece) : AllText (A.map (Piece.settle m)) := by
  intro x hx
  obtain ⟨y, -, rfl⟩ := List.mem_map.mp hx
  cases y with
  | text s => exact ⟨s, rfl⟩
  | withheld c s => exact ⟨_, rfl⟩

theorem map_settle_of_allText {A : List Piece} (hA : AllText A) (m : Nat) :
    A.map (Piece.settle m) = A := by
  induction A with
  | nil => rfl
  | cons x xs ih =>
    obtain ⟨s, rfl⟩ := hA _ (List.mem_cons_self _ _)
    have hxs : AllText xs := fun y hy => hA y (List.mem_cons_of_mem _ hy)
    simp [Piece.settle, ih hxs]

theorem flush_prepend {A : List Piece} (hA : AllText A) (p : Printer) :
    (Printer.prepend A p).flush = Printer.prepend A p.flush := by
  simp [Printer.flush, Printer.prepend, map_settle_of_allText hA]

theorem insertIntoStream_prepend (A : List Piece) (p : Printer) (what : String) :
    (Printer.prepend A p).insertIntoStream what =
      Printer.prepend A (p.insertIntoStream what) := by
  simp [Printer.insertIntoStream, Printer.prepend]

theorem insertTokenIntoStream_prepend (L : TokenLayer) {A : List Piece} (hA : AllText A)
    (p : Printer) (what : Token) :
    (Printer.prepend A p).insertTokenIntoStream L what =
      Printer.prepend A (p.insertTokenIntoStream L what) := by
  unfold Printer.insertTokenIntoStream
  by_cases hk : L.kind what.type = TokenKind.newLine
  · by_cases hc : p.helper.commentOnThisLine = true
    · simp [hk, hc, Printer.prepend]
    · have hf := flush_prepend hA p
      simp only [Printer.prepend] at hf
      simp [hk, hc, Printer.prepend, hf]
  · simp only [hk, if_false]
    exact insertIntoStream_prepend A p _

theorem step_prepend (L : TokenLayer) (withIncludes alignComments : Bool) {A : List Piece}
    (hA : AllText A) (p : Printer) (n : Addr × Token) :
    Printer.step L withIncludes alignComments (Printer.prepend A p) n =
      Printer.prepend A (Printer.step L withIncludes alignComments p n) := by
  unfold Printer.step
  cases hk : L.kind n.2.type with
  | comment =>
    cases alignComments <;> simp [Printer.printComment, Printer.prepend]
  | includeDirective =>
    cases withIncludes
    · simpa using insertTokenIntoStream_prepend L hA p n.2
    · simpa using insertIntoStream_prepend A p _
  | ordinary => exact insertTokenIntoStream_prepend L hA p n.2
  | newLine => exact insertTokenIntoStream_prepend L hA p n.2

theorem render_prepend (L : TokenLayer) (withIncludes alignComments : Bool) {A : List Piece}
    (hA : AllText A) (nodes : List (Addr × Token)) :
    ∀ p : Printer, Printer.render L withIncludes alignComments (Printer.prepend A p) nodes =
      Printer.prepend A (Printer.render L withIncludes alignComments p nodes) := by
  induction nodes with
  | nil => intro p; rfl
  | cons n ns ih =>
    intro p
    simp only [Printer.render, List.foldl_cons] at ih ⊢
    rw [step_prepend L withIncludes alignComments hA, ih]

theorem render_append (L : TokenLayer) (withIncludes alignComments : Bool) (p : Printer)
    (x y : List (Addr × Token)) :
    Printer.render L withIncludes alignComments p (x ++ y) =
      Printer.render L withIncludes alignComments
        (Printer.render L withIncludes alignComments p x) y := by
  simp [Printer.render, List.foldl_append]

/-- A token that is no comment and no newline token appends its text. -/
theorem step_plain (L : TokenLayer) (withIncludes alignComments : Bool) (p : Printer)
    (n : Addr × Token) (hn : PlainToken L n) :
    Printer.step L withIncludes alignComments p n =
      p.insertIntoStream (tokenText L withIncludes n) := by
  obtain ⟨hc, hnl⟩ := hn
  unfold Printer.step tokenText
  cases hk : L.kind n.2.type with
  | comment => exact absurd hk hc
  | newLine => exact absurd hk hnl
  | ordinary => simp [Printer.insertTokenIntoStream, hk]
  | includeDirective => cases withIncludes <;> simp [Printer.insertTokenIntoStream, hk]

/-- Tokens that are no comments and no newline tokens append their texts and advance the
column by the width. -/
theorem render_code (L : TokenLayer) (withIncludes alignComments : Bool)
    (code : List (Addr × Token)) (hcode : ∀ n ∈ code, PlainToken L n) :
    ∀ p : Printer, Printer.render L withIncludes alignComments p code =
      { helper := { p.helper with
          columnCounter := p.helper.columnCounter + (textOf L withIncludes code).length },
        ss := p.ss ++ code.map (fun n => Piece.text (tokenText L withIncludes n)) } := by
  induction code with
  | nil =>
    intro p
    simp [Printer.render, textOf]
  | cons n ns ih =>
    intro p
    have hn : PlainToken L n := hcode n (List.mem_cons_self _ _)
    have hns : ∀ x ∈ ns, PlainToken L x := fun x hx => hcode x (List.mem_cons_of_mem _ hx)
    have hstep := step_plain L withIncludes alignComments p n hn
    have := ih hns (p.insertIntoStream (tokenText L withIncludes n))
    simp only [Printer.render, List.foldl_cons] at this ⊢
    rw [hstep, this]
    simp [Printer.insertIntoStream, textOf, Nat.add_assoc]

/-! ## Commented lines -/

theorem concat_newLine (L : TokenLayer) (l : CommentedLine) :
    Piece.concat (l.newLine.toList.map (fun n => Piece.text (n.2.getText L))) =
      l.newLineText L := by
  cases h : l.newLine <;> simp [CommentedLine.newLineText, h, Piece.concat, Piece.str]

theorem allText_newLine (L : TokenLayer) (l : CommentedLine) :
    AllText (l.newLine.toList.map (fun n => Piece.text (n.2.getText L))) := by
  intro x hx
  obtain ⟨n, -, rfl⟩ := List.mem_map.mp hx
  exact ⟨_, rfl⟩

/-- One commented line rendered with alignment from a line start: the comment is withheld
at the column the text before it reaches, and the newline token of the line does not flush
the pool. -/
theorem render_line_aligned (L : TokenLayer) (withIncludes : Bool) (l : CommentedLine)
    (hl : l.Valid L) (p : Printer) (hcol : p.helper.columnCounter = 0) :
    (Printer.render L withIncludes true p l.nodes).ss = p.ss ++ l.pooledPieces L withIncludes ∧
      (Printer.render L withIncludes true p l.nodes).helper.maximalCommentColumn =
        max p.helper.maximalCommentColumn (l.column L withIncludes) ∧
      (l.newLine.isSome = true →
        (Printer.render L withIncludes true p l.nodes).helper.columnCounter = 0 ∧
        (Printer.render L withIncludes true p l.nodes).helper.commentOnThisLine = false) := by
  obtain ⟨hcode, hcomment, hnl⟩ := hl
  rw [CommentedLine.nodes, render_append, render_code L withIncludes true l.code hcode]
  cases hn : l.newLine with
  | none =>
    simp [Printer.render, Printer.step, hcomment, Printer.printComment,
      CommentedLine.pooledPieces, CommentedLine.column, hcol, hn]
  | some n =>
    have hk : L.kind n.2.type = TokenKind.newLine := hnl n (by simp [hn])
    simp [Printer.render, Printer.step, hcomment, hk, Printer.printComment,
      Printer.insertTokenIntoStream, CommentedLine.pooledPieces, CommentedLine.column, hcol, hn]

/-- A run of commented lines rendered with alignment from a line start: every comment is
withheld and the helper holds the maximum of the natural columns. -/
theorem render_lines_aligned (L : TokenLayer) (withIncludes : Bool)
    (lines : List CommentedLine) :
    (∀ l ∈ lines, l.Valid L) → (∀ l ∈ lines.dropLast, l.newLine.isSome = true) →
    ∀ p : Printer, p.helper.columnCounter = 0 →
      (Printer.render L withIncludes true p (lines.flatMap CommentedLine.nodes)).ss =
          p.ss ++ lines.flatMap (CommentedLine.pooledPieces L withIncludes) ∧
        (Printer.render L withIncludes true p
            (lines.flatMap CommentedLine.nodes)).helper.maximalCommentColumn =
          (lines.map (CommentedLine.column L withIncludes)).foldl max
            p.helper.maximalCommentColumn ∧
        ((∀ l ∈ lines, l.newLine.isSome = true) → p.helper.commentOnThisLine = false →
          (Printer.render L withIncludes true p
              (lines.flatMap CommentedLine.nodes)).helper.columnCounter = 0 ∧
          (Printer.render L withIncludes true p
              (lines.flatMap CommentedLine.nodes)).helper.commentOnThisLine = false) := by
  induction lines with
  | nil =>
    intro _ _ p hcol
    exact ⟨by simp [Printer.render], rfl, fun _ hflag => ⟨hcol, hflag⟩⟩
  | cons l ls ih =>
    intro hl hsome p hcol
    have hl1 := hl l (List.mem_cons_self _ _)
    have hls : ∀ x ∈ ls, x.Valid L := fun x hx => hl x (List.mem_cons_of_mem _ hx)
    obtain ⟨hs, hm, hz⟩ := render_line_aligned L withIncludes l hl1 p hcol
    cases ls with
    | nil =>
      simp only [List.flatMap_cons, List.flatMap_nil, List.append_nil, List.map_cons,
        List.map_nil, List.foldl_cons, List.foldl_nil]
      exact ⟨hs, hm, fun hall _ => hz (hall l (List.mem_cons_self _ _))⟩
    | cons l2 ls2 =>
      have hlsome : l.newLine.isSome = true := hsome l (by simp [List.dropLast])
      obtain ⟨hc1, hf1⟩ := hz hlsome
      have hsome2 : ∀ x ∈ (l2 :: ls2).dropLast, x.newLine.isSome = true := fun x hx =>
        hsome x (by
          rw [List.dropLast_cons₂]
          exact List.mem_cons_of_mem _ hx)
      obtain ⟨is, im, iz⟩ := ih hls hsome2 (Printer.render L withIncludes true p l.nodes) hc1
      rw [List.flatMap_cons, render_append]
      refine ⟨?_, ?_, ?_⟩
      · rw [is, hs]
        simp [List.flatMap_cons]
      · rw [im, hm]
        simp [List.map_cons, List.foldl_cons]
      · intro hall _
        exact iz (fun x hx => hall x (List.mem_cons_of_mem _ hx)) hf1

theorem settle_pooledPieces (L : TokenLayer) (withIncludes : Bool) (m : Nat)
    (lines : List CommentedLine) :
    Piece.concat
        ((lines.flatMap (CommentedLine.pooledPieces L withIncludes)).map (Piece.settle m)) =
      joinLines (CommentedLine.aligned L withIncludes m) lines := by
  induction lines with
  | nil => rfl
  | cons l ls ih =>
    rw [List.flatMap_cons, List.map_append, concat_append, ih]
    simp only [joinLines]
    congr 1
    simp only [CommentedLine.pooledPieces, List.map_append, concat_append,
      map_settle_of_allText (allText_code L withIncludes l.code), concat_code, List.map_cons,
      map_settle_of_allText (allText_newLine L l), concat_newLine,
      Piece.settle, Piece.concat, Piece.str, CommentedLine.aligned, String.append_assoc]

theorem concat_plainPieces (L : TokenLayer) (withIncludes : Bool)
    (lines : List CommentedLine) :
    Piece.concat (lines.flatMap (CommentedLine.plainPieces L withIncludes)) =
      joinLines (CommentedLine.natural L withIncludes) lines := by
  induction lines with
  | nil => rfl
  | cons l ls ih =>
    rw [List.flatMap_cons, concat_append, ih]
    simp only [joinLines]
    congr 1
    simp only [CommentedLine.plainPieces, concat_append, concat_code, concat_newLine,
      Piece.concat, Piece.str, CommentedLine.natural, String.append_assoc]

theorem allText_plainPieces (L : TokenLayer) (withIncludes : Bool)
    (lines : List CommentedLine) :
    AllText (lines.flatMap (CommentedLine.plainPieces L withIncludes)) := by
  intro x hx
  obtain ⟨l, -, hxl⟩ := List.mem_flatMap.mp hx
  rcases List.mem_append.mp hxl with h | h
  · exact allText_code L withIncludes l.code x h
  · rcases List.mem_cons.mp h with h | h
    · exact ⟨_, h⟩
    · exact allText_newLine L l x h

theorem render_endsLine (L : TokenLayer) (withIncludes alignComments : Bool)
    {front : List (Addr × Token)} (h : EndsLine L front) :
    (Printer.render L withIncludes alignComments Printer.start front).helper.columnCounter = 0 ∧
      (Printer.render L withIncludes alignComments Printer.start front).helper.commentOnThisLine
        = false := by
  rcases h with rfl | ⟨f, n, rfl, hk⟩
  · exact ⟨rfl, rfl⟩
  · rw [render_append]
    simp [Printer.render, Printer.step, hk, Printer.insertTokenIntoStream]

/-- After a line that holds no comment the renderer holds no withheld comment: the buffer
is all text, the column is 0 and the running maximum is 0. -/
theorem render_endsPlainLine (L : TokenLayer) (withIncludes : Bool)
    {pre : List (Addr × Token)} (h : EndsPlainLine L pre) :
    AllText (Printer.render L withIncludes true Printer.start pre).ss ∧
      (Printer.render L withIncludes true Printer.start pre).helper.columnCounter = 0 ∧
      (Printer.render L withIncludes true Printer.start pre).helper.commentOnThisLine = false ∧
      (Printer.render L withIncludes true Printer.start pre).helper.maximalCommentColumn = 0 := by
  rcases h with rfl | ⟨front, code, n, rfl, hfront, hcode, hk⟩
  · exact ⟨allText_nil, rfl, rfl, rfl⟩
  · obtain ⟨-, hflag⟩ := render_endsLine L withIncludes true hfront
    rw [render_append, render_append, render_code L withIncludes true code hcode]
    simp only [Printer.render, List.foldl_cons, List.foldl_nil, Printer.step, hk,
      Printer.insertTokenIntoStream, if_true]
    simp only [Printer.render] at hflag
    simp only [hflag, Bool.false_eq_true, if_false, Printer.flush]
    refine ⟨allText_append (allText_map_settle _ _) (allText_singleton _), ?_, ?_, ?_⟩ <;>
      first | rfl | trivial

/-- What follows a run of commented lines, the stream end or a line that holds no comment,
flushes the pool with the maximum the helper holds and changes no earlier piece. -/
theorem render_startsPlainLine (L : TokenLayer) (withIncludes : Bool)
    {post : List (Addr × Token)} (h : StartsPlainLine L post) (q : Printer)
    (hflag : post = [] ∨ q.helper.commentOnThisLine = false) :
    ∃ after, Piece.concat (Printer.render L withIncludes true q post).flush.ss =
      Piece.concat (q.ss.map (Piece.settle q.helper.maximalCommentColumn)) ++ after := by
  obtain ⟨code, rest, rfl, hcode, hrest⟩ := h
  rcases hrest with rfl | ⟨n, r, rfl, hk⟩
  · rw [List.append_nil, render_code L withIncludes true code hcode]
    simp only [Printer.flush, List.map_append, concat_append]
    exact ⟨_, rfl⟩
  · have hf : q.helper.commentOnThisLine = false := hflag.resolve_left (by simp)
    have hsplit : code ++ n :: r = code ++ ([n] ++ r) := by simp
    rw [hsplit, render_append, render_append, render_code L withIncludes true code hcode]
    have hstep : Printer.render L withIncludes true
        { helper := { q.helper with
            columnCounter := q.helper.columnCounter + (textOf L withIncludes code).length },
          ss := q.ss ++ code.map (fun n => Piece.text (tokenText L withIncludes n)) } [n] =
        Printer.prepend
          ((q.ss ++ code.map (fun n => Piece.text (tokenText L withIncludes n))).map
            (Piece.settle q.helper.maximalCommentColumn) ++ [Piece.text (n.2.getText L)])
          { helper :=
              { lineCounter := q.helper.lineCounter + 1, columnCounter := 0,
                commentOnThisLine := false, maximalCommentColumn := 0, commentPool := [] },
            ss := [] } := by
      simp [Printer.render, Printer.step, hk, Printer.insertTokenIntoStream, hf,
        Printer.flush, Printer.prepend]
    have hA : AllText ((q.ss ++ code.map (fun n => Piece.text (tokenText L withIncludes n))).map
        (Piece.settle q.helper.maximalCommentColumn) ++ [Piece.text (n.2.getText L)]) :=
      allText_append (allText_map_settle _ _) (allText_singleton _)
    rw [hstep, render_prepend L withIncludes true hA, flush_prepend hA]
    simp only [Printer.prepend, concat_append, List.map_append, String.append_assoc]
    exact ⟨_, rfl⟩

theorem step_allText (L : TokenLayer) (withIncludes : Bool) (p : Printer)
    (hp : AllText p.ss) (n : Addr × Token) :
    AllText (Printer.step L withIncludes false p n).ss := by
  have hins : ∀ what, AllText (p.insertIntoStream what).ss := fun what =>
    allText_append hp (allText_singleton _)
  have htok : AllText (p.insertTokenIntoStream L n.2).ss := by
    unfold Printer.insertTokenIntoStream
    by_cases hk : L.kind n.2.type = TokenKind.newLine
    · by_cases hc : p.helper.commentOnThisLine = true
      · simp only [hk, hc, if_true]
        exact allText_append hp (allText_singleton _)
      · simp only [hk, hc, if_true, Bool.false_eq_true, if_false, Printer.flush]
        exact allText_append (allText_map_settle _ _) (allText_singleton _)
    · simp only [hk, if_false]
      exact hins _
  unfold Printer.step
  cases hk : L.kind n.2.type with
  | comment => exact allText_append hp (allText_singleton _)
  | includeDirective =>
    cases withIncludes
    · simpa using htok
    · simpa using hins _
  | ordinary => exact htok
  | newLine => exact htok

theorem render_allText (L : TokenLayer) (withIncludes : Bool) (nodes : List (Addr × Token)) :
    ∀ p : Printer, AllText p.ss → AllText (Printer.render L withIncludes false p nodes).ss := by
  induction nodes with
  | nil => intro p hp; exact hp
  | cons n ns ih =>
    intro p hp
    simp only [Printer.render, List.foldl_cons] at ih ⊢
    exact ih _ (step_allText L withIncludes p hp n)

/-- One commented line rendered without alignment: the comment is emitted at once. -/
theorem render_line_plain (L : TokenLayer) (withIncludes : Bool) (l : CommentedLine)
    (hl : l.Valid L) (p : Printer) :
    (Printer.render L withIncludes false p l.nodes).ss =
      p.ss ++ l.plainPieces L withIncludes := by
  obtain ⟨hcode, hcomment, hnl⟩ := hl
  rw [CommentedLine.nodes, render_append, render_code L withIncludes false l.code hcode]
  cases hn : l.newLine with
  | none =>
    simp [Printer.render, Printer.step, hcomment, Printer.printComment,
      CommentedLine.plainPieces, hn]
  | some n =>
    have hk : L.kind n.2.type = TokenKind.newLine := hnl n (by simp [hn])
    simp [Printer.render, Printer.step, hcomment, hk, Printer.printComment,
      Printer.insertTokenIntoStream, CommentedLine.plainPieces, hn]

theorem render_lines_plain (L : TokenLayer) (withIncludes : Bool)
    (lines : List CommentedLine) (hl : ∀ l ∈ lines, l.Valid L) :
    ∀ p : Printer,
      (Printer.render L withIncludes false p (lines.flatMap CommentedLine.nodes)).ss =
        p.ss ++ lines.flatMap (CommentedLine.plainPieces L withIncludes) := by
  induction lines with
  | nil =>
    intro p
    simp [Printer.render]
  | cons l ls ih =>
    intro p
    have hls : ∀ x ∈ ls, x.Valid L := fun x hx => hl x (List.mem_cons_of_mem _ hx)
    rw [List.flatMap_cons, render_append, ih hls,
      render_line_plain L withIncludes l (hl l (List.mem_cons_self _ _)) p]
    simp [List.flatMap_cons]

/-! ## Comment alignment -/

theorem le_foldl_max_init (xs : List Nat) : ∀ init, init ≤ xs.foldl max init := by
  induction xs with
  | nil => intro init; exact Nat.le_refl _
  | cons x xs ih =>
    intro init
    exact Nat.le_trans (Nat.le_max_left init x) (ih (max init x))

theorem le_foldl_max_of_mem (xs : List Nat) :
    ∀ init x, x ∈ xs → x ≤ xs.foldl max init := by
  induction xs with
  | nil => intro init x hx; cases hx
  | cons y ys ih =>
    intro init x hx
    rcases List.mem_cons.mp hx with rfl | h
    · exact Nat.le_trans (Nat.le_max_right init x) (le_foldl_max_init ys (max init x))
    · exact ih (max init y) x h

theorem foldl_max_mem (xs : List Nat) :
    ∀ init, xs.foldl max init = init ∨ xs.foldl max init ∈ xs := by
  induction xs with
  | nil => intro init; exact Or.inl rfl
  | cons y ys ih =>
    intro init
    rcases ih (max init y) with h | h
    · rcases Nat.le_total init y with hle | hle
      · right
        rw [List.foldl_cons, h, Nat.max_eq_right hle]
        exact List.mem_cons_self _ _
      · left
        rw [List.foldl_cons, h, Nat.max_eq_left hle]
    · exact Or.inr (List.mem_cons_of_mem _ h)

theorem column_le_maxColumn (L : TokenLayer) (withIncludes : Bool)
    {lines : List CommentedLine} {l : CommentedLine} (h : l ∈ lines) :
    l.column L withIncludes ≤ maxColumn L withIncludes lines :=
  le_foldl_max_of_mem _ 0 _ (List.mem_map_of_mem _ h)

/-- The sample document as `getText` renders it: with alignment the three comments start at
column 14, without it at the columns 10, 14 and 8. -/
theorem commentedSample_text :
    (commentedSample.getText sampleLayer).1 =
        "strings:\n$s1 = /a/     // first\n$s2 = /abcde/ // second\n$s3 = 4       // third\ncondition:\ntrue" ∧
      (commentedSample.getText sampleLayer false false).1 =
        "strings:\n$s1 = /a/ // first\n$s2 = /abcde/ // second\n$s3 = 4 // third\ncondition:\ntrue" := by
  decide

/-- Writing the sample document with `operator<<` appends the text with the comments
aligned. -/
theorem commentedSample_written :
    (TokenStream.«operator<<» sampleLayer "rule r\n" commentedSample).1 =
      "rule r\nstrings:\n$s1 = /a/     // first\n$s2 = /abcde/ // second\n$s3 = 4       // third\ncondition:\ntrue" := by
  decide

/-- The layout pass on the sample stream: one newline token is inserted, before the
boundary that has none; a second pass inserts nothing. -/
theorem layoutSample_autoformat :
    (layoutSample.autoformat boundaryLayer).tokens.map (Token.getText boundaryLayer) =
        ["rule r ", "\n", "strings:", "\n", "condition:"] ∧
      ((layoutSample.autoformat boundaryLayer).autoformat boundaryLayer).tokens.map
          (Token.getText boundaryLayer) =
        ["rule r ", "\n", "strings:", "\n", "condition:"] ∧
      (layoutSample.autoformat boundaryLayer)._tokens.addrs = [0, 4, 1, 2, 3] := by
  decide

end Yaramod
